import Mathlib

/-!
Verification development for the expression-evaluation and
correlated-subquery-scheduling core of the datafuse query engine.

The definitions below are shallow embeddings of the Rust sources:
  - common/planners/src/plan_expression.rs (Expression, column_name, to_data_type)
  - common/planners/src/plan_select.rs (SubqueryResult)
  - fusequery/query/src/interpreters/interpreter_select.rs
      (get_filter_plan, execute_one_select dispatch loop, SelectInterpreter::execute)
  - fusequery/query/src/pipelines/transforms/transform_filter.rs (FilterTransform)
  - fusequery/query/src/pipelines/transforms/transform_expression_executor.rs
      (ExpressionExecutor::execute)

External collaborators (arrow compute kernels, function registries, the
pipeline builder, the flight RPC client) are modelled as explicit oracle
parameters, following the contracts in the specification.
-/

namespace Datafuse

/-! ## Data model: types, fields, values -/

/-- Error codes from common_exception, restricted to the codes the embedded
functions construct.  `Ok` mirrors `ErrorCode::Ok`, used as the initial
"Not filter plan found" result in `get_filter_plan`. -/
inductive ErrorCode where
  | Ok (msg : String)
  | IllegalDataType (msg : String)
  | LogicalError (msg : String)
  | UnknownColumn (msg : String)
  | UnknownFunction (msg : String)
  deriving DecidableEq, Repr

mutual
/-- Arrow-style data types as used by common_datavalues: a few scalar types
plus List and Struct, which carry fields. -/
inductive DataType where
  | Boolean
  | Int64
  | Utf8
  | List (item : DataField)
  | Struct (fields : List DataField)

/-- A schema field: name, data type, nullability. -/
inductive DataField where
  | mk (name : String) (data_type : DataType) (nullable : Bool)
end

def DataField.name : DataField → String
  | .mk n _ _ => n

def DataField.data_type : DataField → DataType
  | .mk _ t _ => t

def DataField.nullable : DataField → Bool
  | .mk _ _ b => b

/-- Mirror of `DataField::new`. -/
def DataField.new (name : String) (t : DataType) (nullable : Bool) : DataField :=
  .mk name t nullable

/-- A schema is its list of fields (`DataSchemaRef`). -/
abbrev Schema := List DataField

/-- Mirror of arrow schema `field_with_name`: first field with the given
name, or an error if absent. -/
def fieldWithName (s : Schema) (name : String) : Except ErrorCode DataField :=
  match s.find? (fun f => f.name = name) with
  | some f => .ok f
  | none => .error (.UnknownColumn ("Unable to get field named " ++ name))

/-- Scalar values (common_datavalues `DataValue`); the inner Option is the
null indicator. -/
inductive DataValue where
  | Boolean (b : Option Bool)
  | Int64 (i : Option Int)
  | Utf8 (s : Option String)
  deriving DecidableEq, Repr

/-- Mirror of `DataValue::data_type`: the value's intrinsic type. -/
def DataValue.data_type : DataValue → DataType
  | .Boolean _ => .Boolean
  | .Int64 _ => .Int64
  | .Utf8 _ => .Utf8

/-- Display rendering of a DataValue (common_datavalues Display impl,
external to the core; only its determinism matters here). -/
def DataValue.display : DataValue → String
  | .Boolean (some true) => "true"
  | .Boolean (some false) => "false"
  | .Int64 (some i) => toString i
  | .Utf8 (some s) => s
  | _ => "NULL"

mutual
/-- Debug rendering of a DataType (used by `column_name` for Cast). -/
def DataType.debugStr : DataType → String
  | .Boolean => "Boolean"
  | .Int64 => "Int64"
  | .Utf8 => "Utf8"
  | .List f => "List(" ++ DataField.debugStr f ++ ")"
  | .Struct fs => "Struct(" ++ DataField.debugStrList fs ++ ")"

def DataField.debugStr : DataField → String
  | .mk n t b => n ++ ": " ++ DataType.debugStr t ++ (if b then "" else " not null")

def DataField.debugStrList : List DataField → String
  | [] => ""
  | [f] => DataField.debugStr f
  | f :: fs => DataField.debugStr f ++ ", " ++ DataField.debugStrList fs
end

/-! ## Expression and plan trees

The `Expression` enum follows plan_expression.rs.  The `Exists` variant is
used by interpreter_select.rs and transform_filter.rs but its declaration is
not present in the copy of plan_expression.rs under src/.

Modelled from the spec: the `Exists(plan)` variant ("Variants: ...
`Exists(plan)`", data-model section) carrying a shared handle to an inner
plan, whose canonical name is derived from the inner plan's debug identity.

`PlanNode` itself (the plan tree) is also not under src/ beyond ScanPlan and
SelectPlan.  Modelled from the spec: a plan tree exposing a schema and a
short-circuiting preorder walk, with `Filter` nodes carrying a predicate;
`Projection` stands for any other unary node and `Scan` for leaves. -/

mutual
inductive Expression where
  | Alias (name : String) (expr : Expression)
  | Column (name : String)
  | Literal (value : DataValue) (column_name : Option String)
  | UnaryExpression (op : String) (expr : Expression)
  | BinaryExpression (left : Expression) (op : String) (right : Expression)
  | ScalarFunction (op : String) (args : List Expression)
  | AggregateFunction (op : String) (distinct : Bool) (args : List Expression)
  | Sort (expr : Expression) (asc : Bool) (nulls_first : Bool)
  | Wildcard
  | Cast (expr : Expression) (data_type : DataType)
  | ScalarSubquery (name : String) (query_plan : PlanNode)
  | Subquery (name : String) (query_plan : PlanNode)
  | Exists (query_plan : PlanNode)

inductive PlanNode where
  | Filter (predicate : Expression) (input : PlanNode)
  | Projection (input : PlanNode)
  | Scan (schema_name : String) (projected_schema : List DataField)
end

/-- Plan output schema (`PlanNode::schema`): Filter and Projection pass
through their input schema, Scan yields its projected schema. -/
def PlanNode.schema : PlanNode → Schema
  | .Filter _ input => input.schema
  | .Projection input => input.schema
  | .Scan _ s => s

/-- The lazy-static `OP_SET` of plan_expression.rs: scalar functions whose
canonical name ignores the argument list. -/
def OP_SET : List String := ["database", "version"]

/-- ASCII lower-casing of one character (model of Rust `to_lowercase` on
the ASCII operator names appearing here). -/
def asciiLower (c : Char) : Char :=
  if 'A' ≤ c ∧ c ≤ 'Z' then Char.ofNat (c.toNat + 32) else c

/-- Model of Rust `str::to_lowercase` for operator names. -/
def strToLower (s : String) : String := ⟨s.data.map asciiLower⟩

mutual
/-- Debug rendering of an expression, mirroring the manual `fmt::Debug`
impl of plan_expression.rs.  The `Exists` arm is modelled from the spec:
its identity is derived from the inner plan's debug identity. -/
def Expression.debugStr : Expression → String
  | .Alias a v => Expression.debugStr v ++ " as " ++ a
  | .Column v => v
  | .Literal v _ => v.display
  | .Subquery name _ => "subquery(" ++ name ++ ")"
  | .ScalarSubquery name _ => "scalar subquery(" ++ name ++ ")"
  | .BinaryExpression l op r =>
      "(" ++ Expression.debugStr l ++ " " ++ op ++ " " ++ Expression.debugStr r ++ ")"
  | .UnaryExpression op e => "(" ++ op ++ " " ++ Expression.debugStr e ++ ")"
  | .ScalarFunction op args => op ++ "(" ++ Expression.debugStrList args ++ ")"
  | .AggregateFunction op distinct args =>
      op ++ "(" ++ (if distinct then "distinct " else "") ++ Expression.debugStrList args ++ ")"
  | .Sort e _ _ => Expression.debugStr e
  | .Wildcard => "*"
  | .Cast e t => "cast(" ++ Expression.debugStr e ++ " as " ++ t.debugStr ++ ")"
  | .Exists p => "Exists(" ++ PlanNode.debugStr p ++ ")"

def Expression.debugStrList : List Expression → String
  | [] => ""
  | [e] => Expression.debugStr e
  | e :: es => Expression.debugStr e ++ ", " ++ Expression.debugStrList es

/-- Debug identity of a plan (`format "{:?}"` on PlanNode).  Modelled from
the spec: a deterministic structural/debug identity for subplans. -/
def PlanNode.debugStr : PlanNode → String
  | .Filter pred input => "Filter: " ++ Expression.debugStr pred ++ ", " ++ PlanNode.debugStr input
  | .Projection input => "Projection, " ++ PlanNode.debugStr input
  | .Scan name _ => "Scan: " ++ name
end

mutual
/-- Mirror of `Expression::column_name`: the canonical, structurally derived
column name.  The final arms (Literal without a column name, Wildcard,
Exists) correspond to the catch-all `format "{:?}"` branch of the source. -/
def Expression.column_name : Expression → String
  | .Alias name _ => name
  | .Column name => name
  | .Literal _ (some name) => name
  | .UnaryExpression op e => "(" ++ op ++ " " ++ Expression.column_name e ++ ")"
  | .BinaryExpression l op r =>
      "(" ++ Expression.column_name l ++ " " ++ op ++ " " ++ Expression.column_name r ++ ")"
  | .ScalarFunction op args =>
      if OP_SET.contains (strToLower op) then op ++ "()"
      else op ++ "(" ++ Expression.columnNameList args ++ ")"
  | .AggregateFunction op distinct args =>
      if distinct then op ++ "(distinct " ++ Expression.columnNameList args ++ ")"
      else op ++ "(" ++ Expression.columnNameList args ++ ")"
  | .Sort e _ _ => Expression.column_name e
  | .Cast e t => "cast(" ++ Expression.column_name e ++ " as " ++ t.debugStr ++ ")"
  | .Subquery name _ => name
  | .ScalarSubquery name _ => name
  | .Literal v none => (Expression.Literal v none).debugStr
  | .Wildcard => Expression.Wildcard.debugStr
  | .Exists p => (Expression.Exists p).debugStr

def Expression.columnNameList : List Expression → String
  | [] => ""
  | [e] => Expression.column_name e
  | e :: es => Expression.column_name e ++ ", " ++ Expression.columnNameList es
end

/-! ## Type resolution (`Expression::to_data_type`)

The scalar and aggregate function registries are external collaborators
(common_functions); they enter as an explicit `Registry` parameter exposing
the contracts from the spec: `lookup(name) -> Function` with a
`return_type` rule, failing with `UnknownFunction` when absent. -/

/-- A resolved aggregate function: only its return-type rule matters here. -/
structure AggFunction where
  return_type : Except ErrorCode DataType

/-- A resolved scalar function signature. -/
structure ScalarFnSig where
  return_type : List DataType → Except ErrorCode DataType

/-- The function registries consulted by `to_data_type`. -/
structure Registry where
  scalarGet : String → Except ErrorCode ScalarFnSig
  aggGet : String → List DataField → Except ErrorCode AggFunction

/-- Mirror of `Expression::to_subquery_type`: wrap every column of the inner
schema in a List type; one column collapses to that type, several to a
Struct. -/
def Expression.to_subquery_type (subquery_plan : PlanNode) : DataType :=
  let subquery_schema := subquery_plan.schema
  let columns_field := subquery_schema.map (fun column_field =>
    DataField.new column_field.name
      (DataType.List (DataField.new "item" column_field.data_type true)) false)
  match columns_field with
  | [f] => f.data_type
  | _ => DataType.Struct columns_field

/-- Mirror of `Expression::to_scalar_subquery_type`. -/
def Expression.to_scalar_subquery_type (subquery_plan : PlanNode) : DataType :=
  let subquery_schema := subquery_plan.schema
  match subquery_schema with
  | [f] => f.data_type
  | _ => DataType.Struct subquery_schema

/-- Mirror of `Expression::nullable` (a TODO in the source: always false). -/
def Expression.nullable (_e : Expression) (_input_schema : Schema) : Except ErrorCode Bool :=
  .ok false

mutual
/-- Mirror of `Expression::to_data_type`.  The `Exists` arm is absent from
the enum in src/.  Modelled from the spec: an EXISTS predicate is consumed
as a boolean substitution column, so it resolves to Boolean. -/
def Expression.to_data_type (reg : Registry) : Expression → Schema → Except ErrorCode DataType
  | .Alias _ e, s => Expression.to_data_type reg e s
  | .Column c, s => do
      let f ← fieldWithName s c
      .ok f.data_type
  | .Literal v _, _ => .ok v.data_type
  | .Subquery _ query_plan, _ => .ok (Expression.to_subquery_type query_plan)
  | .ScalarSubquery _ query_plan, _ => .ok (Expression.to_scalar_subquery_type query_plan)
  | .BinaryExpression l op r, s => do
      let tl ← Expression.to_data_type reg l s
      let tr ← Expression.to_data_type reg r s
      let func ← reg.scalarGet op
      func.return_type [tl, tr]
  | .UnaryExpression op e, s => do
      let t ← Expression.to_data_type reg e s
      let func ← reg.scalarGet op
      func.return_type [t]
  | .ScalarFunction op args, s => do
      let arg_types ← Expression.toDataTypeList reg args s
      let func ← reg.scalarGet op
      func.return_type arg_types
  | .AggregateFunction op distinct args, s => do
      let fields ← Expression.toDataFieldList reg args s
      let func ← reg.aggGet (op ++ (if distinct then "Distinct" else "")) fields
      func.return_type
  | .Wildcard, _ =>
      .error (.IllegalDataType "Wildcard expressions are not valid to get return type")
  | .Cast _ data_type, _ => .ok data_type
  | .Sort e _ _, s => Expression.to_data_type reg e s
  | .Exists _, _ => .ok DataType.Boolean

def Expression.toDataTypeList (reg : Registry) : List Expression → Schema → Except ErrorCode (List DataType)
  | [], _ => .ok []
  | e :: es, s => do
      let t ← Expression.to_data_type reg e s
      let ts ← Expression.toDataTypeList reg es s
      .ok (t :: ts)

def Expression.toDataFieldList (reg : Registry) : List Expression → Schema → Except ErrorCode (List DataField)
  | [], _ => .ok []
  | e :: es, s => do
      let t ← Expression.to_data_type reg e s
      let nb ← Expression.nullable e s
      let fs ← Expression.toDataFieldList reg es s
      .ok (DataField.new (Expression.column_name e) t nb :: fs)
end

/-- Mirror of `Expression::to_data_field`: canonical name plus resolved
type and nullability. -/
def Expression.to_data_field (reg : Registry) (e : Expression) (input_schema : Schema) :
    Except ErrorCode DataField := do
  let return_type ← Expression.to_data_type reg e input_schema
  let nb ← Expression.nullable e input_schema
  .ok (DataField.new (Expression.column_name e) return_type nb)

/-! ## String-keyed maps

HashMap with String keys, modelled as an association list with
overwrite-on-insert.  Only key membership and the key-to-value mapping of
the Rust HashMap are observable in the embedded code; iteration order is
only used where the source iterates a map it built itself. -/

def hmInsert {α : Type} : List (String × α) → String → α → List (String × α)
  | [], k, v => [(k, v)]
  | (k0, v0) :: rest, k, v =>
      if k0 = k then (k, v) :: rest else (k0, v0) :: hmInsert rest k v

def hmLookup {α : Type} : List (String × α) → String → Option α
  | [], _ => none
  | (k0, v0) :: rest, k => if k0 = k then some v0 else hmLookup rest k

def hmContains {α : Type} (m : List (String × α)) (k : String) : Bool :=
  (hmLookup m k).isSome

/-! ## Columnar values and blocks (common_datablocks / common_datavalues) -/

/-- A column value: a materialized array or a constant broadcast over the
row count (`DataColumnarValue`). -/
inductive DataColumnarValue where
  | Constant (v : DataValue) (rows : Nat)
  | Array (vals : List DataValue)
  deriving DecidableEq, Repr

/-- Mirror of `DataColumnarValue::to_array`: materialize a constant. -/
def DataColumnarValue.to_array : DataColumnarValue → List DataValue
  | .Constant v n => List.replicate n v
  | .Array vs => vs

/-- Row count of one column value. -/
def DataColumnarValue.numRows : DataColumnarValue → Nat
  | .Constant _ n => n
  | .Array vs => vs.length

/-- A batch: a schema plus one column value per field (`DataBlock`). -/
structure DataBlock where
  schema : Schema
  columns : List DataColumnarValue

/-- Mirror of `DataBlock::num_rows`. -/
def DataBlock.num_rows (b : DataBlock) : Nat :=
  match b.columns with
  | [] => 0
  | c :: _ => c.numRows

/-- Mirror of `DataBlock::try_column_by_name`: schema position lookup. -/
def DataBlock.try_column_by_name (b : DataBlock) (name : String) :
    Except ErrorCode DataColumnarValue :=
  match (b.schema.zip b.columns).find? (fun fc => fc.1.name = name) with
  | some fc => .ok fc.2
  | none => .error (.LogicalError ("Unable to get column by name: " ++ name))

/-! ## Expression chain actions and the expression executor

`ExpressionAction` and `ExpressionChain` live in common_planners and are
not under src/.  Modelled from the spec: an action produces exactly one
named output column and is one of InputRef, Constant, FunctionCall,
AliasOf, ExistsPlaceholder -- matching the variants destructured by
`ExpressionExecutor::execute` (Input, Constant, Function, Alias, Exists). -/

inductive ExpressionAction where
  | Input (name : String)
  | Constant (name : String) (value : DataValue)
  | Function (name : String) (op : String) (arg_names : List String)
  | Alias (name : String) (arg_name : String)
  | Exists (name : String)
  deriving DecidableEq, Repr

/-- The output column name of an action (`ExpressionAction::column_name`). -/
def ExpressionAction.column_name : ExpressionAction → String
  | .Input name => name
  | .Constant name _ => name
  | .Function name _ _ => name
  | .Alias name _ => name
  | .Exists name => name

/-- Oracle for the scalar function registry's columnar evaluation
(`f.to_function()` followed by `func.eval(arg_columns, rows)`). -/
abbrev FuncEval := String → List DataColumnarValue → Nat → Except ErrorCode DataColumnarValue

abbrev ColumnMap := List (String × DataColumnarValue)

abbrev AliasMap := List (String × List String)

/-- The alias bookkeeping at the top of the action loop of
`ExpressionExecutor::execute`: record alias names under the source name;
this runs before the skip check. -/
def aliasStep (am : AliasMap) : ExpressionAction → AliasMap
  | .Alias name arg_name =>
      match hmLookup am arg_name with
      | some v => hmInsert am arg_name (v ++ [name])
      | none => hmInsert am arg_name [name]
  | _ => am

/-- Argument-column lookup for a Function action (the iterator-collect over
arg_names in the source), failing with the source's logic error on a
missing argument. -/
def lookupArgs (cm : ColumnMap) : List String → Except ErrorCode (List DataColumnarValue)
  | [] => .ok []
  | arg :: rest =>
      match hmLookup cm arg with
      | some c =>
          match lookupArgs cm rest with
          | .ok cols => .ok (c :: cols)
          | .error e => .error e
      | none => .error
          (ErrorCode.LogicalError "Arguments must be prepared before function transform")

/-- The action loop of `ExpressionExecutor::execute` (lines 71..121 of
transform_expression_executor.rs): skip any action whose output name is
already in the column map; otherwise Input copies from the batch, Function
evaluates over looked-up argument columns, Constant broadcasts, Exists
inserts nothing (its insert is commented out in the source), Alias only
affects the alias map. -/
def processActions (evalFn : FuncEval) (block : DataBlock) (rows : Nat) :
    List ExpressionAction → ColumnMap → AliasMap → Except ErrorCode (ColumnMap × AliasMap)
  | [], cm, am => .ok (cm, am)
  | action :: rest, cm, am =>
      let am2 := aliasStep am action
      if hmContains cm action.column_name then
        processActions evalFn block rows rest cm am2
      else
        match action with
        | .Input name =>
            match block.try_column_by_name name with
            | .error e => .error e
            | .ok column =>
                processActions evalFn block rows rest (hmInsert cm name column) am2
        | .Function name op arg_names =>
            match lookupArgs cm arg_names with
            | .error e => .error e
            | .ok arg_columns =>
                match evalFn op arg_columns rows with
                | .error e => .error e
                | .ok column =>
                    processActions evalFn block rows rest (hmInsert cm name column) am2
        | .Constant name value =>
            processActions evalFn block rows rest
              (hmInsert cm name (.Constant value rows)) am2
        | .Exists _ => processActions evalFn block rows rest cm am2
        | .Alias _ _ => processActions evalFn block rows rest cm am2

/-- Step 1 of `ExpressionExecutor::execute`: seed the column map from the
input block's schema fields. -/
def seedFromBlock (block : DataBlock) : Except ErrorCode ColumnMap :=
  block.schema.foldlM (fun m f => do
    let c ← block.try_column_by_name f.name
    pure (hmInsert m f.name c)) []

/-- Step 2 of `ExpressionExecutor::execute`: insert one broadcast boolean
array per exists substitution (the source materializes the constant with
to_array before inserting). -/
def insertExistsColumns (m : ColumnMap) (exists_res : Option (List (String × Bool)))
    (rows : Nat) : ColumnMap :=
  match exists_res with
  | none => m
  | some l => l.foldl (fun m nb =>
      hmInsert m nb.1 (.Array (List.replicate rows (DataValue.Boolean (some nb.2))))) m

/-- Step 4 of `ExpressionExecutor::execute`: alias projection, copying each
source column under every alias name recorded for it. -/
def aliasProject (am : AliasMap) (cm : ColumnMap) : Except ErrorCode ColumnMap :=
  am.foldlM (fun cm kv => do
    let column ← (match hmLookup cm kv.1 with
      | some c => Except.ok c
      | none => Except.error
          (ErrorCode.LogicalError "Arguments must be prepared before alias transform") :
        Except ErrorCode DataColumnarValue)
    pure (kv.2.foldl (fun cm name => hmInsert cm name column) cm)) cm

/-- Step 5 of `ExpressionExecutor::execute`: project the output schema out
of the column map, failing with a logic error on a missing column. -/
def projectOutput (cm : ColumnMap) : Schema → Except ErrorCode (List DataColumnarValue)
  | [] => .ok []
  | f :: fs =>
      match hmLookup cm f.name with
      | some c =>
          match projectOutput cm fs with
          | .ok cols => .ok (c :: cols)
          | .error e => .error e
      | none => .error
          (ErrorCode.LogicalError ("Projection column: " ++ f.name ++ " not exists, there are bugs!"))

/-- The executor over a compiled chain
(transform_expression_executor.rs). -/
structure ExpressionExecutor where
  input_schema : Schema
  output_schema : Schema
  chain : List ExpressionAction
  alias_project : Bool

/-- Mirror of `ExpressionExecutor::execute`. -/
def ExpressionExecutor.execute (evalFn : FuncEval) (self : ExpressionExecutor)
    (block : DataBlock) (exists_res : Option (List (String × Bool))) :
    Except ErrorCode DataBlock :=
  match seedFromBlock block with
  | .error e => .error e
  | .ok cm0 =>
      let rows := block.num_rows
      let cm1 := insertExistsColumns cm0 exists_res rows
      match processActions evalFn block rows self.chain cm1 [] with
      | .error e => .error e
      | .ok (cm2, am) =>
          match (if self.alias_project then aliasProject am cm2 else .ok cm2) with
          | .error e => .error e
          | .ok cm3 =>
              match projectOutput cm3 self.output_schema with
              | .error e => .error e
              | .ok project_columns => .ok ⟨self.output_schema, project_columns⟩

/-! ## Exists discovery

`find_exists_exprs` is declared in common_planners but its definition is
not under src/.  Modelled from the spec: a recursive scan of the expression
tree collecting every Exists sub-expression; subquery plans are not
entered. -/

mutual
def findExistsIn : Expression → List Expression
  | .Alias _ e => findExistsIn e
  | .UnaryExpression _ e => findExistsIn e
  | .BinaryExpression l _ r => findExistsIn l ++ findExistsIn r
  | .ScalarFunction _ args => findExistsList args
  | .AggregateFunction _ _ args => findExistsList args
  | .Sort e _ _ => findExistsIn e
  | .Cast e _ => findExistsIn e
  | .Exists p => [Expression.Exists p]
  | .Column _ => []
  | .Literal _ _ => []
  | .Wildcard => []
  | .Subquery _ _ => []
  | .ScalarSubquery _ _ => []

def findExistsList : List Expression → List Expression
  | [] => []
  | e :: es => findExistsIn e ++ findExistsList es
end

def find_exists_exprs (exprs : List Expression) : List Expression :=
  findExistsList exprs

/-! ## The filter transform (transform_filter.rs) -/

/-- The observable outcome of one of the embedded Rust computations: a
value, an error returned to the caller, or a process panic. -/
inductive RunOut (α : Type) where
  | panicked (msg : String)
  | error (e : ErrorCode)
  | ok (a : α)

/-- Oracle for `PipelineBuilder::create(ctx, subplan).build()`. -/
abbrev BuildOracle := PlanNode → Except ErrorCode Unit

/-- Oracle for executing the built pipeline and collecting its blocks. -/
abbrev DrainOracle := PlanNode → Except ErrorCode (List DataBlock)

/-- The exists-resolution loop at the top of `FilterTransform::execute`:
for each discovered expression, compute its key (its debug string), and for
an Exists build and fully drain an independent pipeline.  A build failure
hits the panic branch of the source; an execution failure is returned via
the question-mark operator; otherwise record whether at least one block was
produced. -/
def resolveExists (build : BuildOracle) (drain : DrainOracle) :
    List Expression → List (String × Bool) → RunOut (List (String × Bool))
  | [], acc => .ok acc
  | exst :: rest, acc =>
      let name := exst.debugStr
      match exst with
      | .Exists p =>
          match build p with
          | .error _ => .panicked "do not expect this to happed"
          | .ok _ =>
              match drain p with
              | .error e => .error e
              | .ok result =>
                  resolveExists build drain rest
                    (hmInsert acc name (decide (result.length > 0)))
      | _ => resolveExists build drain rest acc

/-- The subquery-resolution phase of `FilterTransform::execute`: everything
that runs before the filtered batch stream is returned to the caller. -/
def filterResolveSubqueries (build : BuildOracle) (drain : DrainOracle)
    (predicate : Expression) : RunOut (List (String × Bool)) :=
  resolveExists build drain (find_exists_exprs [predicate]) []

/-- Total number of rows across a drained pipeline's collected blocks.
This expresses the claim wording "produced at least one row"; the source
itself never computes it (it tests `result.len() > 0`, the number of
collected blocks). -/
def totalRowsProduced (bs : List DataBlock) : Nat :=
  (bs.map DataBlock.num_rows).sum

/-- Elementwise downcast of a materialized array to a boolean array
(`downcast_array!(filter_array, BooleanArray)`), failing on any
non-boolean value. -/
def downcastBooleanArray : List DataValue → Except ErrorCode (List (Option Bool))
  | [] => .ok []
  | .Boolean b :: rest => do
      let bs ← downcastBooleanArray rest
      .ok (b :: bs)
  | _ :: _ => .error (.LogicalError "downcast to BooleanArray failed")

/-- Row retention under a boolean mask: keep exactly the positions whose
mask value is true, in order. -/
def keepRows {α : Type} : List α → List (Option Bool) → List α
  | v :: vs, m :: ms => if m = some true then v :: keepRows vs ms else keepRows vs ms
  | _, _ => []

/-- Modelled from the spec: the arrow `filter_record_batch` kernel (an
external collaborator) physically retains only the rows whose filter value
is `true`; nulls are treated as not-matching; the filter array length must
match the batch. -/
def filter_record_batch (b : DataBlock) (mask : List (Option Bool)) :
    Except ErrorCode DataBlock :=
  if b.columns.all (fun c => c.to_array.length = mask.length) then
    .ok ⟨b.schema, b.columns.map (fun c => .Array (keepRows c.to_array mask))⟩
  else .error (.LogicalError "filter array length mismatch")

/-- The per-batch closure `execute_fn` of `FilterTransform::execute`
(transform_filter.rs lines 117..132): evaluate the compiled predicate chain
with the exists substitutions, extract the predicate column, downcast it to
a boolean array, and filter the original batch with it. -/
def execute_fn (evalFn : FuncEval) (executor : ExpressionExecutor)
    (exists_map : List (String × Bool)) (column_name : String)
    (block : Except ErrorCode DataBlock) : Except ErrorCode DataBlock :=
  match block with
  | .error e => .error e
  | .ok block =>
      match executor.execute evalFn block (some exists_map) with
      | .error e => .error e
      | .ok filter_block =>
          match filter_block.try_column_by_name column_name with
          | .error e => .error e
          | .ok fcol =>
              match downcastBooleanArray fcol.to_array with
              | .error e => .error e
              | .ok filter_array => filter_record_batch block filter_array

/-! ## The correlated subquery scheduler (interpreter_select.rs) -/

/-- FilterPlan (common_planners, not under src/ beyond its uses).
Modelled from the spec: a Filter node's predicate and input. -/
structure FilterPlan where
  predicate : Expression
  input : PlanNode

/-- Mirror of `get_filter_plan`: the first Filter node in a preorder walk
(the walk short-circuits below a Filter), Err of an Ok-code when the plan
has no Filter. -/
def get_filter_plan : PlanNode → Except ErrorCode FilterPlan
  | .Filter pred input => .ok ⟨pred, input⟩
  | .Projection input => get_filter_plan input
  | .Scan _ _ => .error (.Ok "Not filter plan found")

/-- `SubqueryResult` (plan_select.rs): a map from a subquery's recorded
name to a stored DataBlock.  The `insert` method called by
interpreter_select.rs is not defined under src/; it is modelled as the
HashMap insert on the wrapped blocks field. -/
abbrev SubqueryResult := List (String × DataBlock)

abbrev NamesMap := List (String × String)

/-- One BFS iteration of `SelectInterpreter::execute`: for every plan in
the current queue, locate its first filter, extract the Exists expressions
of its predicate, and yield one entry per Exists: the subplan, the names
key (the debug string of the subplan) and the names value (the Exists
expression's column name). -/
def levelEntryOf : Expression → Option (PlanNode × String × String)
  | .Exists pl => some (pl, pl.debugStr, (Expression.Exists pl).column_name)
  | _ => none

def levelEntries (queue : List PlanNode) : List (PlanNode × String × String) :=
  (queue.map (fun b =>
    match get_filter_plan b with
    | .ok p => (find_exists_exprs [p.predicate]).filterMap levelEntryOf
    | .error _ => [])).flatten

/-- Invariant of the names map built by the BFS: every recorded value is
the Exists expression name derived from its key (the subplan's debug
identity), as inserted at discovery time. -/
def namesOk (m : NamesMap) : Prop :=
  ∀ kv ∈ m, kv.2 = "Exists(" ++ kv.1 ++ ")"

/-- The breadth-first level-assignment loop of `SelectInterpreter::execute`
(lines 120..142): repeatedly turn the current queue into one level of
discovered subplans, recording names, until no Exists is found.  The fuel
parameter bounds the iteration count; the number of iterations of the
source loop is at most the Exists nesting depth plus one, which is at most
the plan size, so the fuel used below never runs out. -/
def bfs : Nat → List PlanNode → NamesMap → List (List PlanNode) × NamesMap
  | 0, _, names => ([], names)
  | fuel + 1, queue, names =>
      match queue with
      | [] => ([], names)
      | _ :: _ =>
          let entries := levelEntries queue
          let one_level := entries.map (·.1)
          let names1 := entries.foldl (fun m e => hmInsert m e.2.1 e.2.2) names
          let (rest, names2) := bfs fuel one_level names1
          (if one_level.isEmpty then rest else one_level :: rest, names2)

mutual
/-- Structural size of an expression, used to bound the BFS iteration
count. -/
def exprSize : Expression → Nat
  | .Alias _ e => 1 + exprSize e
  | .Column _ => 1
  | .Literal _ _ => 1
  | .UnaryExpression _ e => 1 + exprSize e
  | .BinaryExpression l _ r => 1 + exprSize l + exprSize r
  | .ScalarFunction _ args => 1 + exprSizeList args
  | .AggregateFunction _ _ args => 1 + exprSizeList args
  | .Sort e _ _ => 1 + exprSize e
  | .Wildcard => 1
  | .Cast e _ => 1 + exprSize e
  | .ScalarSubquery _ p => 1 + planSize p
  | .Subquery _ p => 1 + planSize p
  | .Exists p => 1 + planSize p

def exprSizeList : List Expression → Nat
  | [] => 0
  | e :: es => exprSize e + exprSizeList es

/-- Structural size of a plan. -/
def planSize : PlanNode → Nat
  | .Filter pred input => 1 + exprSize pred + planSize input
  | .Projection input => 1 + planSize input
  | .Scan _ _ => 1
end

/-- Oracle for `execute_one_select` followed by `try_collect`: run a plan
as an independent (possibly distributed) query under a substitution map and
collect its output blocks. -/
abbrev ExecOracle := PlanNode → SubqueryResult → Except ErrorCode (List DataBlock)

/-- One recorded subquery execution: the plan that was run and the
substitution map passed to it. -/
structure TraceEntry where
  plan : PlanNode
  subst : SubqueryResult

/-- One iteration of the evaluation loop of `SelectInterpreter::execute`
(lines 146..157): run the subquery plan with the current substitution map,
look up its recorded name (`names.get(..).unwrap()`, keyed by the plan's
debug identity) and store `result[0]` (a Vec indexing that panics when the
collected result is empty). -/
def runOne (runPlan : ExecOracle) (names : NamesMap)
    (st : SubqueryResult × List TraceEntry) (exp : PlanNode) :
    RunOut (SubqueryResult × List TraceEntry) :=
  let tr := st.2 ++ [⟨exp, st.1⟩]
  match runPlan exp st.1 with
  | .error e => .error e
  | .ok result =>
      match hmLookup names exp.debugStr with
      | none => .panicked "called Option unwrap on a None value"
      | some name =>
          match result with
          | [] => .panicked "index out of bounds: the len is 0 but the index is 0"
          | b :: _ => .ok (hmInsert st.1 name b, tr)

/-- The inner for-loop over one level. -/
def runLevel (runPlan : ExecOracle) (names : NamesMap) :
    List PlanNode → SubqueryResult × List TraceEntry →
    RunOut (SubqueryResult × List TraceEntry)
  | [], st => .ok st
  | p :: ps, st =>
      match runOne runPlan names st p with
      | .ok st2 => runLevel runPlan names ps st2
      | .error e => .error e
      | .panicked m => .panicked m

/-- The outer loop over levels; the caller passes the levels already
reversed (`for i in (0..size).rev()`). -/
def runLevels (runPlan : ExecOracle) (names : NamesMap) :
    List (List PlanNode) → SubqueryResult × List TraceEntry →
    RunOut (SubqueryResult × List TraceEntry)
  | [], st => .ok st
  | lvl :: lvls, st =>
      match runLevel runPlan names lvl st with
      | .ok st2 => runLevels runPlan names lvls st2
      | .error e => .error e
      | .panicked m => .panicked m

/-- Mirror of `SelectInterpreter::execute`: BFS level assignment, reverse
evaluation of the levels threading the substitution map, then the top-level
execution with the fully accumulated map.  The trace records every
execute_one_select call together with the substitution map passed to it. -/
def selectExecute (runPlan : ExecOracle) (plan : PlanNode) :
    RunOut (List DataBlock × List TraceEntry) :=
  let r := bfs (planSize plan + 2) [plan] []
  match runLevels runPlan r.2 r.1.reverse ([], []) with
  | .panicked m => .panicked m
  | .error e => .error e
  | .ok (res, tr) =>
      match runPlan plan res with
      | .error e => .error e
      | .ok final => .ok (final, tr ++ [⟨plan, res⟩])

/-! ## Remote dispatch (execute_one_select, interpreter_select.rs 62..84) -/

/-- A cluster node; only its identity matters here. -/
structure ClusterNode where
  name : String

/-- The killed-set computation of `prepare_error_handler`: iterate the
first `endIdx` remote actions and collect their node names, deduplicated
(a HashSet keyed by node name). -/
def killedSetOf (remote_actions : List (ClusterNode × String)) (endIdx : Nat) :
    List String :=
  (remote_actions.take endIdx).foldl
    (fun acc na => if acc.contains na.1.name then acc else acc ++ [na.1.name]) []

/-- Outcome of the dispatch loop: the indices whose prepare RPC was
attempted in order, the teardown set, and the overall result. -/
structure DispatchResult where
  sent : List Nat
  killed : List String
  outcome : Except ErrorCode Unit

/-- Consecutive indices starting at s. -/
def idxRange : Nat → Nat → List Nat
  | _, 0 => []
  | s, n + 1 => s :: idxRange (s + 1) n

/-- The dispatch loop: for each fragment in list order, obtain the flight
client (`connect`) and send the prepare RPC (`prepare`); on the first
prepare failure, build the killed set from the already-processed prefix and
return the error; a connect failure returns its error directly (the source
propagates it with the question-mark operator before the handler). -/
def dispatchFrom (connect prepare : Nat → Except ErrorCode Unit)
    (remote_actions : List (ClusterNode × String)) :
    Nat → List (ClusterNode × String) → List Nat → DispatchResult
  | _, [], sent => ⟨sent, [], .ok ()⟩
  | i, _ :: rest, sent =>
      match connect i with
      | .error e => ⟨sent, [], .error e⟩
      | .ok _ =>
          match prepare i with
          | .error e => ⟨sent ++ [i], killedSetOf remote_actions i, .error e⟩
          | .ok _ => dispatchFrom connect prepare remote_actions (i + 1) rest (sent ++ [i])

/-- The remote-dispatch phase of `execute_one_select`. -/
def dispatchRemote (connect prepare : Nat → Except ErrorCode Unit)
    (remote_actions : List (ClusterNode × String)) : DispatchResult :=
  dispatchFrom connect prepare remote_actions 0 remote_actions []

end Datafuse

namespace Datafuse

/-! ## Map lemmas -/

theorem hmLookup_insert_self {α : Type} (m : List (String × α)) (k : String) (v : α) :
    hmLookup (hmInsert m k v) k = some v := by
  induction m with
  | nil => simp [hmInsert, hmLookup]
  | cons kv rest ih =>
      obtain ⟨k0, v0⟩ := kv
      by_cases h : k0 = k
      · simp [hmInsert, h, hmLookup]
      · simp [hmInsert, h, hmLookup, ih]

theorem hmLookup_insert_ne {α : Type} (m : List (String × α)) (k k2 : String) (v : α)
    (h : k2 ≠ k) : hmLookup (hmInsert m k v) k2 = hmLookup m k2 := by
  have hne : ¬(k = k2) := fun he => h he.symm
  induction m with
  | nil => simp [hmInsert, hmLookup, hne]
  | cons kv rest ih =>
      obtain ⟨k0, v0⟩ := kv
      by_cases hk : k0 = k
      · subst hk
        simp [hmInsert, hmLookup, hne]
      · by_cases hk2 : k0 = k2
        · simp [hmInsert, hk, hmLookup, hk2, h]
        · simp [hmInsert, hk, hmLookup, hk2, ih]

theorem hmContains_insert {α : Type} (m : List (String × α)) (k k2 : String) (v : α)
    (h : hmContains m k2 = true) : hmContains (hmInsert m k v) k2 = true := by
  by_cases hk : k2 = k
  · subst hk
    simp [hmContains, hmLookup_insert_self]
  · simpa [hmContains, hmLookup_insert_ne m k k2 v hk] using h

theorem hmContains_insert_self {α : Type} (m : List (String × α)) (k : String) (v : α) :
    hmContains (hmInsert m k v) k = true := by
  simp [hmContains, hmLookup_insert_self]

/-! ## Lemmas about the exists-resolution loop of the filter transform -/

theorem resolveExists_skip_key (build : BuildOracle) (drain : DrainOracle)
    (exprs : List Expression) (acc out : List (String × Bool)) (k : String)
    (hk : ∀ p, Expression.Exists p ∈ exprs → (Expression.Exists p).debugStr ≠ k)
    (h : resolveExists build drain exprs acc = .ok out) :
    hmLookup out k = hmLookup acc k := by
  induction exprs generalizing acc with
  | nil =>
      simp only [resolveExists] at h
      cases h
      rfl
  | cons e rest ih =>
      have hrest : ∀ p, Expression.Exists p ∈ rest → (Expression.Exists p).debugStr ≠ k :=
        fun q hq => hk q (List.mem_cons_of_mem _ hq)
      cases e
      case Exists p =>
          simp only [resolveExists] at h
          cases hb : build p with
          | error e0 => rw [hb] at h; cases h
          | ok u =>
              rw [hb] at h
              cases hd : drain p with
              | error e0 => rw [hd] at h; cases h
              | ok result =>
                  rw [hd] at h
                  rw [ih _ hrest h]
                  exact hmLookup_insert_ne _ _ _ _
                    (Ne.symm (hk p (List.mem_cons_self _ _)))
      all_goals (simp only [resolveExists] at h; exact ih _ hrest h)

theorem resolveExists_cons_nonExists (build : BuildOracle) (drain : DrainOracle)
    (e : Expression) (rest : List Expression) (acc : List (String × Bool))
    (h : ∀ pl : PlanNode, e ≠ Expression.Exists pl) :
    resolveExists build drain (e :: rest) acc = resolveExists build drain rest acc := by
  cases e
  case Exists pl => exact absurd rfl (h pl)
  all_goals rfl

theorem resolveExists_prefix_ok (build : BuildOracle) (drain : DrainOracle)
    (pre : List Expression) (acc : List (String × Bool))
    (hpre : ∀ q, Expression.Exists q ∈ pre → build q = .ok () ∧ ∃ bs, drain q = .ok bs) :
    ∃ acc2, ∀ rest, resolveExists build drain (pre ++ rest) acc =
      resolveExists build drain rest acc2 := by
  induction pre generalizing acc with
  | nil => exact ⟨acc, fun rest => rfl⟩
  | cons e pre2 ih =>
      have hpre2 : ∀ q, Expression.Exists q ∈ pre2 → build q = .ok () ∧ ∃ bs, drain q = .ok bs :=
        fun q hq => hpre q (List.mem_cons_of_mem _ hq)
      by_cases hex : ∃ pl, e = Expression.Exists pl
      · obtain ⟨pl, rfl⟩ := hex
        obtain ⟨hb, bs, hd⟩ := hpre pl (List.mem_cons_self _ _)
        obtain ⟨acc2, hacc2⟩ :=
          ih (hmInsert acc (Expression.Exists pl).debugStr (decide (bs.length > 0))) hpre2
        refine ⟨acc2, fun rest => ?_⟩
        have : resolveExists build drain (Expression.Exists pl :: (pre2 ++ rest)) acc =
            resolveExists build drain (pre2 ++ rest)
              (hmInsert acc (Expression.Exists pl).debugStr (decide (bs.length > 0))) := by
          simp only [resolveExists, hb, hd]
        simpa [this] using hacc2 rest
      · have hne : ∀ pl : PlanNode, e ≠ Expression.Exists pl :=
          fun pl hpl => hex ⟨pl, hpl⟩
        obtain ⟨acc2, hacc2⟩ := ih acc hpre2
        exact ⟨acc2, fun rest => by
          rw [List.cons_append, resolveExists_cons_nonExists build drain e _ acc hne]
          exact hacc2 rest⟩

theorem resolveExists_total (build : BuildOracle) (drain : DrainOracle)
    (exprs : List Expression)
    (hall : ∀ q, Expression.Exists q ∈ exprs → build q = .ok () ∧ ∃ bs, drain q = .ok bs) :
    ∀ acc, ∃ out, resolveExists build drain exprs acc = .ok out := by
  intro acc
  obtain ⟨acc2, hacc2⟩ := resolveExists_prefix_ok build drain exprs acc hall
  have := hacc2 []
  rw [List.append_nil] at this
  exact ⟨acc2, this⟩

theorem resolveExists_mem_lookup (build : BuildOracle) (drain : DrainOracle)
    (exprs : List Expression) (p : PlanNode)
    (hall : ∀ q, Expression.Exists q ∈ exprs → build q = .ok () ∧ ∃ bs, drain q = .ok bs)
    (hinj : ∀ q, Expression.Exists q ∈ exprs →
      (Expression.Exists q).debugStr = (Expression.Exists p).debugStr → q = p)
    (hmem : Expression.Exists p ∈ exprs) :
    ∀ acc out, resolveExists build drain exprs acc = .ok out →
      ∃ bs, drain p = .ok bs ∧
        hmLookup out (Expression.Exists p).debugStr = some (decide (bs.length > 0)) := by
  induction exprs with
  | nil => cases hmem
  | cons e rest ih =>
      intro acc out h
      have hall2 : ∀ q, Expression.Exists q ∈ rest → build q = .ok () ∧ ∃ bs, drain q = .ok bs :=
        fun q hq => hall q (List.mem_cons_of_mem _ hq)
      have hinj2 : ∀ q, Expression.Exists q ∈ rest →
          (Expression.Exists q).debugStr = (Expression.Exists p).debugStr → q = p :=
        fun q hq => hinj q (List.mem_cons_of_mem _ hq)
      by_cases hex : ∃ pl, e = Expression.Exists pl
      · obtain ⟨pl, rfl⟩ := hex
        obtain ⟨hb, bs, hd⟩ := hall pl (List.mem_cons_self _ _)
        have h2 : resolveExists build drain rest
            (hmInsert acc (Expression.Exists pl).debugStr (decide (bs.length > 0))) = .ok out := by
          simpa only [resolveExists, hb, hd] using h
        by_cases hp : Expression.Exists p ∈ rest
        · exact ih hall2 hinj2 hp _ _ h2
        · have hple : p = pl := by
            rcases List.mem_cons.mp hmem with he | hm
            · injection he
            · exact absurd hm hp
          subst hple
          have hkeys : ∀ q, Expression.Exists q ∈ rest →
              (Expression.Exists q).debugStr ≠ (Expression.Exists p).debugStr := by
            intro q hq hkey
            exact hp ((hinj2 q hq hkey) ▸ hq)
          have hlk := resolveExists_skip_key build drain rest _ out
            (Expression.Exists p).debugStr hkeys h2
          refine ⟨bs, hd, ?_⟩
          rw [hlk, hmLookup_insert_self]
      · have hne : ∀ pl : PlanNode, e ≠ Expression.Exists pl :=
          fun pl hpl => hex ⟨pl, hpl⟩
        rw [resolveExists_cons_nonExists build drain e rest acc hne] at h
        have hm : Expression.Exists p ∈ rest := by
          rcases List.mem_cons.mp hmem with he | hm
          · exact absurd he.symm (hne p)
          · exact hm
        exact ih hall2 hinj2 hm _ _ h

/-! ## Lemmas about the expression executor -/

theorem lookup_foldl_insert_not_mem {α β : Type} (v : β → α) (l : List (String × β))
    (m : List (String × α)) (n : String) (h : n ∉ l.map Prod.fst) :
    hmLookup (l.foldl (fun m nb => hmInsert m nb.1 (v nb.2)) m) n = hmLookup m n := by
  induction l generalizing m with
  | nil => rfl
  | cons kv rest ih =>
      simp only [List.map_cons, List.mem_cons] at h
      push_neg at h
      simp only [List.foldl_cons]
      rw [ih _ h.2, hmLookup_insert_ne _ _ _ _ h.1]

theorem lookup_foldl_insert_mem {α β : Type} (v : β → α) (l : List (String × β))
    (m : List (String × α)) (n : String) (b : β)
    (hnodup : (l.map Prod.fst).Nodup) (hmem : (n, b) ∈ l) :
    hmLookup (l.foldl (fun m nb => hmInsert m nb.1 (v nb.2)) m) n = some (v b) := by
  induction l generalizing m with
  | nil => cases hmem
  | cons kv rest ih =>
      simp only [List.map_cons, List.nodup_cons] at hnodup
      simp only [List.foldl_cons]
      rcases List.mem_cons.mp hmem with he | hm
      · cases he
        have hnot : n ∉ rest.map Prod.fst := hnodup.1
        rw [lookup_foldl_insert_not_mem v rest _ n hnot, hmLookup_insert_self]
      · exact ih _ hnodup.2 hm

theorem processActions_preserves (evalFn : FuncEval) (block : DataBlock) (rows : Nat)
    (chain : List ExpressionAction) :
    ∀ cm am out n, hmContains cm n = true →
      processActions evalFn block rows chain cm am = .ok out →
      hmLookup out.1 n = hmLookup cm n := by
  induction chain with
  | nil =>
      intro cm am out n _ h
      simp only [processActions] at h
      cases h
      rfl
  | cons action rest ih =>
      intro cm am out n hc h
      by_cases hskip : hmContains cm action.column_name = true
      · simp only [processActions] at h
        rw [if_pos hskip] at h
        exact ih cm _ out n hc h
      · have hne : n ≠ action.column_name := by
          intro he
          rw [he] at hc
          exact hskip hc
        cases action with
        | Input name =>
            simp only [processActions] at h
            rw [if_neg hskip] at h
            cases htc : block.try_column_by_name name with
            | error e0 => simp only [htc] at h; cases h
            | ok column =>
                simp only [htc] at h
                rw [ih _ _ out n (hmContains_insert cm name n column hc) h]
                exact hmLookup_insert_ne cm name n column hne
        | Function name op arg_names =>
            simp only [processActions] at h
            rw [if_neg hskip] at h
            cases hargs : lookupArgs cm arg_names with
            | error e0 => simp only [hargs] at h; cases h
            | ok arg_columns =>
                simp only [hargs] at h
                cases hev : evalFn op arg_columns rows with
                | error e0 => simp only [hev] at h; cases h
                | ok column =>
                    simp only [hev] at h
                    rw [ih _ _ out n (hmContains_insert cm name n column hc) h]
                    exact hmLookup_insert_ne cm name n column hne
        | Constant name value =>
            simp only [processActions] at h
            rw [if_neg hskip] at h
            rw [ih _ _ out n (hmContains_insert cm name n (.Constant value rows) hc) h]
            exact hmLookup_insert_ne cm name n (.Constant value rows) hne
        | Exists name =>
            simp only [processActions] at h
            rw [if_neg hskip] at h
            exact ih cm _ out n hc h
        | Alias name arg_name =>
            simp only [processActions] at h
            rw [if_neg hskip] at h
            exact ih cm _ out n hc h

theorem projectOutput_get (cm : ColumnMap) :
    ∀ (s : Schema) (cols : List DataColumnarValue), projectOutput cm s = .ok cols →
      ∀ (i : Nat) (f : DataField), s[i]? = some f →
        ∃ c, cols[i]? = some c ∧ hmLookup cm f.name = some c := by
  intro s
  induction s with
  | nil =>
      intro cols _ i f hf
      simp at hf
  | cons f0 fs ih =>
      intro cols h i f hf
      simp only [projectOutput] at h
      cases hlk : hmLookup cm f0.name with
      | none => rw [hlk] at h; cases h
      | some c0 =>
          rw [hlk] at h
          cases hrest : projectOutput cm fs with
          | error e0 => rw [hrest] at h; cases h
          | ok cols2 =>
              rw [hrest] at h
              cases h
              match i with
              | 0 =>
                  simp only [List.getElem?_cons_zero, Option.some.injEq] at hf
                  subst hf
                  exact ⟨c0, by simp, hlk⟩
              | i2 + 1 =>
                  simp only [List.getElem?_cons_succ] at hf
                  obtain ⟨c, hcs, hcl⟩ := ih cols2 hrest i2 f hf
                  exact ⟨c, by simpa using hcs, hcl⟩

/-! ## Lemmas about the dispatch loop -/

theorem killedSetOf_fold_mem (l : List (ClusterNode × String)) (acc : List String)
    (nm : String) :
    nm ∈ l.foldl (fun acc na => if acc.contains na.1.name then acc else acc ++ [na.1.name]) acc ↔
      nm ∈ acc ∨ nm ∈ l.map (fun na => na.1.name) := by
  induction l generalizing acc with
  | nil => simp
  | cons hd tl ih =>
      simp only [List.foldl_cons, List.map_cons, List.mem_cons]
      by_cases hc : acc.contains hd.1.name
      · rw [if_pos hc]
        rw [ih]
        have hmem : hd.1.name ∈ acc := by
          simpa using hc
        constructor
        · rintro (h | h)
          · exact Or.inl h
          · exact Or.inr (Or.inr h)
        · rintro (h | h | h)
          · exact Or.inl h
          · exact Or.inl (h ▸ hmem)
          · exact Or.inr h
      · rw [if_neg hc]
        rw [ih]
        simp only [List.mem_append, List.mem_singleton]
        tauto

theorem killedSetOf_fold_nodup (l : List (ClusterNode × String)) (acc : List String)
    (hacc : acc.Nodup) :
    (l.foldl (fun acc na => if acc.contains na.1.name then acc else acc ++ [na.1.name]) acc).Nodup := by
  induction l generalizing acc with
  | nil => simpa
  | cons hd tl ih =>
      simp only [List.foldl_cons]
      by_cases hc : acc.contains hd.1.name
      · rw [if_pos hc]
        exact ih acc hacc
      · rw [if_neg hc]
        refine ih _ ?_
        have hnm : hd.1.name ∉ acc := by
          simpa using hc
        simpa [List.nodup_append] using ⟨hacc, hnm⟩

theorem killedSetOf_mem (ras : List (ClusterNode × String)) (endIdx : Nat) (nm : String) :
    nm ∈ killedSetOf ras endIdx ↔ nm ∈ (ras.take endIdx).map (fun na => na.1.name) := by
  unfold killedSetOf
  rw [killedSetOf_fold_mem]
  simp

theorem killedSetOf_nodup (ras : List (ClusterNode × String)) (endIdx : Nat) :
    (killedSetOf ras endIdx).Nodup :=
  killedSetOf_fold_nodup _ _ List.nodup_nil

theorem dispatchFrom_fail (connect prepare : Nat → Except ErrorCode Unit)
    (ras : List (ClusterNode × String)) (e : ErrorCode) :
    ∀ (l : List (ClusterNode × String)) (i0 : Nat) (sent : List Nat) (k : Nat),
      k < l.length →
      (∀ j, j < k → connect (i0 + j) = .ok () ∧ prepare (i0 + j) = .ok ()) →
      connect (i0 + k) = .ok () →
      prepare (i0 + k) = .error e →
      dispatchFrom connect prepare ras i0 l sent =
        ⟨sent ++ idxRange i0 k ++ [i0 + k], killedSetOf ras (i0 + k), .error e⟩ := by
  intro l
  induction l with
  | nil =>
      intro i0 sent k hk
      exact absurd hk (by simp)
  | cons hd tl ih =>
      intro i0 sent k hk hpre hconn hfail
      match k with
      | 0 =>
          simp only [Nat.add_zero] at hconn hfail
          simp [dispatchFrom, hconn, hfail, idxRange]
      | k2 + 1 =>
          obtain ⟨hc0, hp0⟩ := hpre 0 (Nat.succ_pos _)
          simp only [Nat.add_zero] at hc0 hp0
          have hstep : dispatchFrom connect prepare ras i0 (hd :: tl) sent =
              dispatchFrom connect prepare ras (i0 + 1) tl (sent ++ [i0]) := by
            simp [dispatchFrom, hc0, hp0]
          rw [hstep]
          have hk2 : k2 < tl.length := by
            simpa [Nat.succ_lt_succ_iff] using hk
          have hpre2 : ∀ j, j < k2 → connect (i0 + 1 + j) = .ok () ∧
              prepare (i0 + 1 + j) = .ok () := by
            intro j hj
            have := hpre (j + 1) (Nat.succ_lt_succ hj)
            constructor
            · have h1 := this.1
              rw [show i0 + (j + 1) = i0 + 1 + j by omega] at h1
              exact h1
            · have h2 := this.2
              rw [show i0 + (j + 1) = i0 + 1 + j by omega] at h2
              exact h2
          have hconn2 : connect (i0 + 1 + k2) = .ok () := by
            rw [show i0 + 1 + k2 = i0 + (k2 + 1) by omega]
            exact hconn
          have hfail2 : prepare (i0 + 1 + k2) = .error e := by
            rw [show i0 + 1 + k2 = i0 + (k2 + 1) by omega]
            exact hfail
          rw [ih (i0 + 1) (sent ++ [i0]) k2 hk2 hpre2 hconn2 hfail2]
          have harith : i0 + 1 + k2 = i0 + (k2 + 1) := by omega
          rw [harith]
          simp [idxRange]

/-! ## Lemmas about the subquery scheduler -/

theorem hmLookup_mem {α : Type} (m : List (String × α)) (k : String) (v : α)
    (h : hmLookup m k = some v) : (k, v) ∈ m := by
  induction m with
  | nil => cases h
  | cons kv rest ih =>
      obtain ⟨k0, v0⟩ := kv
      by_cases hk : k0 = k
      · subst hk
        simp [hmLookup] at h
        subst h
        exact List.mem_cons_self _ _
      · simp only [hmLookup, if_neg hk] at h
        exact List.mem_cons_of_mem _ (ih h)

theorem hmInsert_mem {α : Type} (m : List (String × α)) (k : String) (v : α)
    (kv : String × α) (h : kv ∈ hmInsert m k v) : kv ∈ m ∨ kv = (k, v) := by
  induction m with
  | nil =>
      simp only [hmInsert, List.mem_singleton] at h
      exact Or.inr h
  | cons kv0 rest ih =>
      obtain ⟨k0, v0⟩ := kv0
      by_cases hk : k0 = k
      · rw [show hmInsert ((k0, v0) :: rest) k v = (k, v) :: rest from by
          simp [hmInsert, hk]] at h
        rcases List.mem_cons.mp h with h | h
        · exact Or.inr h
        · exact Or.inl (List.mem_cons_of_mem _ h)
      · rw [show hmInsert ((k0, v0) :: rest) k v = (k0, v0) :: hmInsert rest k v from by
          simp [hmInsert, hk]] at h
        rcases List.mem_cons.mp h with h | h
        · exact Or.inl (h ▸ List.mem_cons_self _ _)
        · rcases ih h with h2 | h2
          · exact Or.inl (List.mem_cons_of_mem _ h2)
          · exact Or.inr h2

theorem column_name_exists (p : PlanNode) :
    (Expression.Exists p).column_name = "Exists(" ++ p.debugStr ++ ")" := rfl

theorem levelEntryOf_some (a : Expression) (e : PlanNode × String × String)
    (h : levelEntryOf a = some e) :
    a = Expression.Exists e.1 ∧
      e = (e.1, e.1.debugStr, (Expression.Exists e.1).column_name) := by
  cases a
  case Exists pl =>
      simp only [levelEntryOf, Option.some.injEq] at h
      subst h
      exact ⟨rfl, rfl⟩
  all_goals cases h

theorem levelEntries_mem_shape (queue : List PlanNode) (e : PlanNode × String × String)
    (h : e ∈ levelEntries queue) :
    e = (e.1, e.1.debugStr, (Expression.Exists e.1).column_name) := by
  unfold levelEntries at h
  rw [List.mem_flatten] at h
  obtain ⟨l, hl, hel⟩ := h
  rw [List.mem_map] at hl
  obtain ⟨b, _, hb⟩ := hl
  subst hb
  cases hfp : get_filter_plan b with
  | error e0 =>
      rw [hfp] at hel
      cases hel
  | ok fp =>
      rw [hfp] at hel
      rw [List.mem_filterMap] at hel
      obtain ⟨a, _, ha⟩ := hel
      exact (levelEntryOf_some a e ha).2

theorem mem_levelEntries_of (queue : List PlanNode) (b : PlanNode) (fp : FilterPlan)
    (pl : PlanNode) (hb : b ∈ queue) (hfp : get_filter_plan b = .ok fp)
    (hpl : Expression.Exists pl ∈ find_exists_exprs [fp.predicate]) :
    (pl, pl.debugStr, (Expression.Exists pl).column_name) ∈ levelEntries queue := by
  unfold levelEntries
  rw [List.mem_flatten]
  refine ⟨(find_exists_exprs [fp.predicate]).filterMap levelEntryOf, ?_, ?_⟩
  · rw [List.mem_map]
    exact ⟨b, hb, by rw [hfp]⟩
  · rw [List.mem_filterMap]
    exact ⟨Expression.Exists pl, hpl, rfl⟩

theorem namesFold_mono (entries : List (PlanNode × String × String)) :
    ∀ (m : NamesMap) (k : String), hmContains m k = true →
      hmContains (entries.foldl (fun m e => hmInsert m e.2.1 e.2.2) m) k = true := by
  induction entries with
  | nil => intro m k hk; exact hk
  | cons e rest ih =>
      intro m k hk
      exact ih _ k (hmContains_insert m e.2.1 k e.2.2 hk)

theorem namesFold_contains (entries : List (PlanNode × String × String)) :
    ∀ (m : NamesMap) (e0 : PlanNode × String × String), e0 ∈ entries →
      hmContains (entries.foldl (fun m e => hmInsert m e.2.1 e.2.2) m) e0.2.1 = true := by
  induction entries with
  | nil => intro m e0 h; cases h
  | cons e rest ih =>
      intro m e0 h
      rcases List.mem_cons.mp h with he | hm
      · subst he
        exact namesFold_mono rest _ _ (hmContains_insert_self m e0.2.1 e0.2.2)
      · exact ih _ e0 hm

theorem namesFold_ok (queue : List PlanNode) :
    ∀ (m : NamesMap), namesOk m →
      namesOk ((levelEntries queue).foldl (fun m e => hmInsert m e.2.1 e.2.2) m) := by
  have hshape : ∀ e ∈ levelEntries queue, e.2.2 = "Exists(" ++ e.2.1 ++ ")" := by
    intro e he
    have := levelEntries_mem_shape queue e he
    rw [this]
    simp only []
    exact column_name_exists e.1
  generalize levelEntries queue = entries at hshape ⊢
  induction entries with
  | nil => intro m hm; exact hm
  | cons e rest ih =>
      intro m hm
      refine ih (fun e2 he2 => hshape e2 (List.mem_cons_of_mem _ he2)) _ ?_
      intro kv hkv
      rcases hmInsert_mem m e.2.1 e.2.2 kv hkv with h | h
      · exact hm kv h
      · subst h
        exact hshape e (List.mem_cons_self _ _)

theorem bfs_unfold_cons (fuel : Nat) (q : PlanNode) (qs : List PlanNode) (names0 : NamesMap) :
    bfs (fuel + 1) (q :: qs) names0 =
      (if ((levelEntries (q :: qs)).map (fun e => e.1)).isEmpty then
          (bfs fuel ((levelEntries (q :: qs)).map (fun e => e.1))
            ((levelEntries (q :: qs)).foldl (fun m e => hmInsert m e.2.1 e.2.2) names0)).1
        else ((levelEntries (q :: qs)).map (fun e => e.1)) ::
          (bfs fuel ((levelEntries (q :: qs)).map (fun e => e.1))
            ((levelEntries (q :: qs)).foldl (fun m e => hmInsert m e.2.1 e.2.2) names0)).1,
       (bfs fuel ((levelEntries (q :: qs)).map (fun e => e.1))
          ((levelEntries (q :: qs)).foldl (fun m e => hmInsert m e.2.1 e.2.2) names0)).2) := rfl

theorem bfs_invariant : ∀ (fuel : Nat) (queue : List PlanNode) (names0 : NamesMap),
    namesOk names0 →
    namesOk (bfs fuel queue names0).2 ∧
    (∀ k, hmContains names0 k = true → hmContains (bfs fuel queue names0).2 k = true) ∧
    (∀ lvl ∈ (bfs fuel queue names0).1, ∀ p ∈ lvl,
      hmContains (bfs fuel queue names0).2 p.debugStr = true) := by
  intro fuel
  induction fuel with
  | zero =>
      intro queue names0 h0
      exact ⟨h0, fun k hk => hk, by simp [bfs]⟩
  | succ n ih =>
      intro queue names0 h0
      cases queue with
      | nil => exact ⟨h0, fun k hk => hk, by simp [bfs]⟩
      | cons q qs =>
          rw [bfs_unfold_cons n q qs names0]
          have hok1 : namesOk ((levelEntries (q :: qs)).foldl
              (fun m e => hmInsert m e.2.1 e.2.2) names0) :=
            namesFold_ok (q :: qs) names0 h0
          obtain ⟨hA, hB, hC⟩ := ih ((levelEntries (q :: qs)).map (fun e => e.1)) _ hok1
          refine ⟨hA, ?_, ?_⟩
          · intro k hk
            exact hB k (namesFold_mono (levelEntries (q :: qs)) names0 k hk)
          · intro lvl hlvl p hp
            by_cases hemp : ((levelEntries (q :: qs)).map (fun e => e.1)).isEmpty
            · rw [if_pos hemp] at hlvl
              exact hC lvl hlvl p hp
            · rw [if_neg hemp] at hlvl
              rcases List.mem_cons.mp hlvl with he | hm
              · subst he
                rw [List.mem_map] at hp
                obtain ⟨e0, he0, hpe⟩ := hp
                have hshape := levelEntries_mem_shape (q :: qs) e0 he0
                have hcnt := namesFold_contains (levelEntries (q :: qs)) names0 e0 he0
                have hkey : e0.2.1 = p.debugStr := by
                  rw [hshape]
                  simp only []
                  rw [hpe]
                rw [hkey] at hcnt
                exact hB p.debugStr hcnt
              · exact hC lvl hm p hp

theorem runOne_ok (runPlan : ExecOracle) (names : NamesMap) (exp : PlanNode)
    (st : SubqueryResult × List TraceEntry)
    (hrun : ∃ b bs, runPlan exp st.1 = .ok (b :: bs))
    (hOk : namesOk names)
    (hc : hmContains names exp.debugStr = true) :
    ∃ b, runOne runPlan names st exp =
      .ok (hmInsert st.1 ((Expression.Exists exp).column_name) b,
        st.2 ++ [⟨exp, st.1⟩]) := by
  obtain ⟨b, bs, hr⟩ := hrun
  have hv : ∃ v, hmLookup names exp.debugStr = some v := by
    unfold hmContains at hc
    cases hl : hmLookup names exp.debugStr with
    | none => rw [hl] at hc; cases hc
    | some v => exact ⟨v, rfl⟩
  obtain ⟨v, hv⟩ := hv
  have hveq : v = "Exists(" ++ exp.debugStr ++ ")" :=
    hOk _ (hmLookup_mem names exp.debugStr v hv)
  refine ⟨b, ?_⟩
  unfold runOne
  rw [hr, hv]
  rw [column_name_exists, ← hveq]

theorem runLevel_ok (runPlan : ExecOracle) (names : NamesMap)
    (hrun : ∀ p s, ∃ b bs, runPlan p s = .ok (b :: bs))
    (hOk : namesOk names) :
    ∀ (lvl : List PlanNode), (∀ p ∈ lvl, hmContains names p.debugStr = true) →
    ∀ st, ∃ res2 Δ, runLevel runPlan names lvl st = .ok (res2, st.2 ++ Δ) ∧
      (∀ k, hmContains st.1 k = true → hmContains res2 k = true) ∧
      (∀ p ∈ lvl, hmContains res2 ((Expression.Exists p).column_name) = true) ∧
      (∀ p ∈ lvl, ∃ e ∈ Δ, e.plan = p ∧
        (∀ k, hmContains st.1 k = true → hmContains e.subst k = true)) := by
  intro lvl
  induction lvl with
  | nil =>
      intro _ st
      refine ⟨st.1, [], by simp [runLevel], fun k hk => hk, by simp, by simp⟩
  | cons p ps ih =>
      intro hcont st
      obtain ⟨b, hb⟩ := runOne_ok runPlan names p st (hrun p st.1) hOk
        (hcont p (List.mem_cons_self _ _))
      obtain ⟨res2, Δ2, hrl, hmono, hcOut, hentries⟩ :=
        ih (fun q hq => hcont q (List.mem_cons_of_mem _ hq))
          (hmInsert st.1 ((Expression.Exists p).column_name) b, st.2 ++ [⟨p, st.1⟩])
      refine ⟨res2, ⟨p, st.1⟩ :: Δ2, ?_, ?_, ?_, ?_⟩
      · show (match runOne runPlan names st p with
          | .ok st2 => runLevel runPlan names ps st2
          | .error e => .error e
          | .panicked m => .panicked m) = .ok (res2, st.2 ++ ⟨p, st.1⟩ :: Δ2)
        rw [hb]
        show runLevel runPlan names ps
            (hmInsert st.1 ((Expression.Exists p).column_name) b, st.2 ++ [⟨p, st.1⟩]) =
          .ok (res2, st.2 ++ ⟨p, st.1⟩ :: Δ2)
        rw [hrl]
        simp
      · intro k hk
        exact hmono k (hmContains_insert _ _ _ _ hk)
      · intro q hq
        rcases List.mem_cons.mp hq with he | hm
        · subst he
          exact hmono _ (hmContains_insert_self st.1 _ b)
        · exact hcOut q hm
      · intro q hq
        rcases List.mem_cons.mp hq with he | hm
        · subst he
          exact ⟨⟨q, st.1⟩, List.mem_cons_self _ _, rfl, fun k hk => hk⟩
        · obtain ⟨e, hmem, hplan, hsub⟩ := hentries q hm
          exact ⟨e, List.mem_cons_of_mem _ hmem, hplan,
            fun k hk => hsub k (hmContains_insert _ _ _ _ hk)⟩

theorem runLevels_ok (runPlan : ExecOracle) (names : NamesMap)
    (hrun : ∀ p s, ∃ b bs, runPlan p s = .ok (b :: bs))
    (hOk : namesOk names) :
    ∀ (lvls : List (List PlanNode)),
      (∀ lvl ∈ lvls, ∀ p ∈ lvl, hmContains names p.debugStr = true) →
    ∀ st, ∃ res2 Δ, runLevels runPlan names lvls st = .ok (res2, st.2 ++ Δ) ∧
      (∀ k, hmContains st.1 k = true → hmContains res2 k = true) := by
  intro lvls
  induction lvls with
  | nil =>
      intro _ st
      exact ⟨st.1, [], by simp [runLevels], fun k hk => hk⟩
  | cons lvl lvls2 ih =>
      intro hcont st
      obtain ⟨res1, Δ1, hrl, hmono1, _, _⟩ :=
        runLevel_ok runPlan names hrun hOk lvl
          (hcont lvl (List.mem_cons_self _ _)) st
      obtain ⟨res2, Δ2, hrls, hmono2⟩ :=
        ih (fun l hl => hcont l (List.mem_cons_of_mem _ hl)) (res1, st.2 ++ Δ1)
      refine ⟨res2, Δ1 ++ Δ2, ?_, fun k hk => hmono2 k (hmono1 k hk)⟩
      show (match runLevel runPlan names lvl st with
          | .ok st2 => runLevels runPlan names lvls2 st2
          | .error e => .error e
          | .panicked m => .panicked m) = .ok (res2, st.2 ++ (Δ1 ++ Δ2))
      rw [hrl]
      show runLevels runPlan names lvls2 (res1, st.2 ++ Δ1) = .ok (res2, st.2 ++ (Δ1 ++ Δ2))
      rw [hrls]
      simp

theorem runLevels_append (runPlan : ExecOracle) (names : NamesMap)
    (X Y : List (List PlanNode)) :
    ∀ st st1, runLevels runPlan names X st = .ok st1 →
      runLevels runPlan names (X ++ Y) st = runLevels runPlan names Y st1 := by
  induction X with
  | nil =>
      intro st st1 h
      simp only [runLevels] at h
      cases h
      rfl
  | cons lvl X2 ih =>
      intro st st1 h
      simp only [runLevels] at h ⊢
      cases hrl : runLevel runPlan names lvl st with
      | ok st2 =>
          rw [hrl] at h
          exact ih st2 st1 h
      | error e => rw [hrl] at h; cases h
      | panicked m => rw [hrl] at h; cases h

/-! ## Claim theorems -/

/-- C8: Resolving the type of the Wildcard expression fails with an
IllegalDataType error for every input schema (and every registry). -/
theorem wildcard_to_data_type_illegal (reg : Registry) (s : Schema) :
    Expression.to_data_type reg Expression.Wildcard s =
      .error (.IllegalDataType "Wildcard expressions are not valid to get return type") := rfl

/-- C9: For every expression e, target type T, schema and registry,
resolving the type of Cast(e, T) returns T unconditionally, without
inspecting the resolved type of e. -/
theorem cast_to_data_type_is_target (reg : Registry) (e : Expression) (T : DataType) (s : Schema) :
    Expression.to_data_type reg (Expression.Cast e T) s = .ok T := rfl

/-- C7 counterexample: two structurally different ScalarFunction
expressions with the same textual operator but different children share the
same canonical name, because operators in OP_SET render without their
arguments. -/
theorem column_name_collision :
    Expression.column_name (.ScalarFunction "database" [.Column "a"]) =
      Expression.column_name (.ScalarFunction "database" [.Column "b"]) ∧
    Expression.ScalarFunction "database" [.Column "a"] ≠
      Expression.ScalarFunction "database" [.Column "b"] := by
  refine ⟨by decide, fun h => ?_⟩
  simp only [Expression.ScalarFunction.injEq, List.cons.injEq, Expression.Column.injEq] at h
  exact absurd h.2.1 (by decide)

/-- C7 (amended): canonical naming is deterministic on expression
structure (structurally identical expressions always yield identical
names), but it is not injective: there are structurally different
expressions with the same textual operator and different children that
yield the same name (for example, operators in OP_SET render without their
arguments). -/
theorem column_name_deterministic_with_collisions :
    (∀ e1 e2 : Expression, e1 = e2 →
      Expression.column_name e1 = Expression.column_name e2) ∧
    (∃ op : String, ∃ a1 a2 : List Expression, a1 ≠ a2 ∧
      Expression.column_name (.ScalarFunction op a1) =
        Expression.column_name (.ScalarFunction op a2)) := by
  refine ⟨fun e1 e2 h => h ▸ rfl, "database", [.Column "a"], [.Column "b"], fun h => ?_, by decide⟩
  simp only [List.cons.injEq, Expression.Column.injEq] at h
  exact absurd h.1 (by decide)

/-- Witness for the determinism half of the amended C7 theorem at a
concrete expression. -/
theorem column_name_deterministic_witness :
    Expression.column_name (.Column "x") = Expression.column_name (.Column "x") :=
  column_name_deterministic_with_collisions.1 (.Column "x") (.Column "x") rfl

/-- C5 counterexample: the boolean recorded for an Exists subplan is not
true-iff-at-least-one-row.  Draining the subplan's pipeline yields exactly
one block with zero rows: the claim requires the recorded boolean to be
false (no row was produced), but the loop tests `result.len() > 0` over
the collected blocks and records true. -/
theorem c5_zero_row_block_counterexample :
    filterResolveSubqueries (fun _ => .ok ())
      (fun _ => .ok [⟨[], []⟩]) (.Exists (.Scan "q" [])) =
      .ok [((Expression.Exists (.Scan "q" [])).debugStr, true)] ∧
    (fun (_ : PlanNode) => (.ok [(⟨[], []⟩ : DataBlock)] : Except ErrorCode (List DataBlock)))
        (PlanNode.Scan "q" []) = .ok [⟨[], []⟩] ∧
    totalRowsProduced [(⟨[], []⟩ : DataBlock)] = 0 :=
  ⟨rfl, rfl, rfl⟩

/-- C5 (amended): For every Exists sub-expression discovered in a Filter
predicate, the boolean outcome recorded in the substitution map by the
filter transform's subquery-resolution loop is true if and only if fully
draining the independently built pipeline for that subplan produced at
least one BLOCK (`result.len() > 0` counts collected DataBlocks, not
rows: a drain yielding only zero-row blocks still records true).
Hypotheses: pipeline build and drain succeed for every discovered subplan,
and the discovered subplans have collision-free debug identities (the
source keys the map by debug strings). -/
theorem c5_exists_boolean_iff_blocks (build : BuildOracle) (drain : DrainOracle)
    (predicate : Expression) (p : PlanNode)
    (hmem : Expression.Exists p ∈ find_exists_exprs [predicate])
    (hall : ∀ q, Expression.Exists q ∈ find_exists_exprs [predicate] →
      build q = .ok () ∧ ∃ bs, drain q = .ok bs)
    (hinj : ∀ q, Expression.Exists q ∈ find_exists_exprs [predicate] →
      (Expression.Exists q).debugStr = (Expression.Exists p).debugStr → q = p) :
    ∃ out bs, filterResolveSubqueries build drain predicate = .ok out ∧
      drain p = .ok bs ∧
      hmLookup out (Expression.Exists p).debugStr = some (decide (bs.length > 0)) ∧
      (decide (bs.length > 0) = true ↔ bs ≠ []) := by
  obtain ⟨out, hout⟩ :=
    resolveExists_total build drain (find_exists_exprs [predicate]) hall []
  obtain ⟨bs, hd, hlk⟩ :=
    resolveExists_mem_lookup build drain (find_exists_exprs [predicate]) p hall hinj hmem [] out hout
  refine ⟨out, bs, hout, hd, hlk, ?_⟩
  simp [List.length_pos_iff_ne_nil]

/-- Witness for the amended C5: a single Exists predicate over a subquery
whose drain yields one block; the recorded outcome is true (the block
count, not a row count, is what the loop tests). -/
theorem c5_exists_boolean_iff_blocks_witness :
    ∃ out bs,
      filterResolveSubqueries (fun _ => .ok ())
        (fun _ => .ok [⟨[], []⟩]) (.Exists (.Scan "q" [])) = .ok out ∧
      (fun (_ : PlanNode) => (.ok [(⟨[], []⟩ : DataBlock)] : Except ErrorCode (List DataBlock)))
          (PlanNode.Scan "q" []) = .ok bs ∧
      hmLookup out (Expression.Exists (.Scan "q" [])).debugStr =
        some (decide (bs.length > 0)) ∧
      (decide (bs.length > 0) = true ↔ bs ≠ []) := by
  refine c5_exists_boolean_iff_blocks (fun _ => .ok ()) (fun _ => .ok [⟨[], []⟩])
    (.Exists (.Scan "q" [])) (.Scan "q" []) ?_ ?_ ?_
  · simp [find_exists_exprs, findExistsList, findExistsIn]
  · intro q _
    exact ⟨rfl, ⟨[⟨[], []⟩], rfl⟩⟩
  · intro q hq _
    simp only [find_exists_exprs, findExistsList, findExistsIn, List.append_nil,
      List.mem_singleton] at hq
    injection hq

/-- C6 counterexample: when building the inner pipeline for an Exists
subplan fails, the filter transform's execute does not return the failure
as an error: it hits the panic branch of the source (a process abort). -/
theorem c6_build_failure_panics_counterexample :
    filterResolveSubqueries (fun _ => .error (.LogicalError "build failed"))
      (fun _ => .ok []) (.Exists (.Scan "q" [])) =
        .panicked "do not expect this to happed" ∧
    ∀ e, filterResolveSubqueries (fun _ => .error (.LogicalError "build failed"))
      (fun _ => .ok []) (.Exists (.Scan "q" [])) ≠ .error e := by
  refine ⟨rfl, fun e h => ?_⟩
  rw [show filterResolveSubqueries (fun _ => .error (.LogicalError "build failed"))
      (fun _ => .ok []) (.Exists (.Scan "q" [])) =
        .panicked "do not expect this to happed" from rfl] at h
  exact RunOut.noConfusion h

/-- C6 (amended): if draining the inner pipeline for the first failing
Exists subplan fails, the filter transform's execute surfaces that error to
its caller; but if building the inner pipeline fails, the source panics (a
process abort) instead of returning the error. -/
theorem c6_subquery_failure_behaviour (build : BuildOracle) (drain : DrainOracle)
    (predicate : Expression) :
    (∀ pre p post e, find_exists_exprs [predicate] = pre ++ Expression.Exists p :: post →
      (∀ q, Expression.Exists q ∈ pre → build q = .ok () ∧ ∃ bs, drain q = .ok bs) →
      build p = .ok () → drain p = .error e →
      filterResolveSubqueries build drain predicate = .error e) ∧
    (∀ pre p post, find_exists_exprs [predicate] = pre ++ Expression.Exists p :: post →
      (∀ q, Expression.Exists q ∈ pre → build q = .ok () ∧ ∃ bs, drain q = .ok bs) →
      (∃ e0, build p = .error e0) →
      filterResolveSubqueries build drain predicate =
        .panicked "do not expect this to happed") := by
  constructor
  · intro pre p post e hsplit hpre hb hd
    obtain ⟨acc2, hacc2⟩ := resolveExists_prefix_ok build drain pre [] hpre
    unfold filterResolveSubqueries
    rw [hsplit, hacc2 (Expression.Exists p :: post)]
    simp only [resolveExists, hb, hd]
  · intro pre p post hsplit hpre hb
    obtain ⟨e0, hb0⟩ := hb
    obtain ⟨acc2, hacc2⟩ := resolveExists_prefix_ok build drain pre [] hpre
    unfold filterResolveSubqueries
    rw [hsplit, hacc2 (Expression.Exists p :: post)]
    simp only [resolveExists, hb0]

/-- Witness for C6 (amended), first half: one Exists subplan whose drain
fails; execute returns exactly that error. -/
theorem c6_subquery_failure_behaviour_witness :
    filterResolveSubqueries (fun _ => .ok ())
      (fun _ => .error (.LogicalError "drain failed")) (.Exists (.Scan "q" [])) =
      .error (.LogicalError "drain failed") :=
  (c6_subquery_failure_behaviour (fun _ => .ok ())
      (fun _ => .error (.LogicalError "drain failed")) (.Exists (.Scan "q" []))).1
    [] (.Scan "q" []) [] (.LogicalError "drain failed")
    (by simp [find_exists_exprs, findExistsList, findExistsIn])
    (fun q hq => absurd hq (List.not_mem_nil _))
    rfl rfl

/-- C3: When dispatching remote fragments in list order, if the prepare
RPC for the fragment at index i fails (clients up to i connect, prepares
before i succeed), then the overall call returns that error, the attempted
sends are exactly the fragments 0..i (the last being the failing one, so
nothing at index i or later is sent after the failure), and the teardown
set contains exactly the node names of fragments 0..i-1, deduplicated. -/
theorem c3_dispatch_abort (connect prepare : Nat → Except ErrorCode Unit)
    (ras : List (ClusterNode × String)) (i : Nat) (e : ErrorCode)
    (hi : i < ras.length)
    (hok : ∀ j, j < i → connect j = .ok () ∧ prepare j = .ok ())
    (hconn : connect i = .ok ())
    (hfail : prepare i = .error e) :
    (dispatchRemote connect prepare ras).outcome = .error e ∧
    (dispatchRemote connect prepare ras).sent = idxRange 0 i ++ [i] ∧
    (∀ nm, nm ∈ (dispatchRemote connect prepare ras).killed ↔
      nm ∈ (ras.take i).map (fun na => na.1.name)) ∧
    (dispatchRemote connect prepare ras).killed.Nodup := by
  have h := dispatchFrom_fail connect prepare ras e ras 0 [] i
    (by simpa using hi)
    (by intro j hj; simpa using hok j hj)
    (by simpa using hconn)
    (by simpa using hfail)
  simp only [Nat.zero_add, List.nil_append] at h
  unfold dispatchRemote
  rw [h]
  exact ⟨rfl, rfl, fun nm => killedSetOf_mem ras i nm, killedSetOf_nodup ras i⟩

/-- Witness for C3: fragments on nodes A, B, C where the prepare for index
1 fails; the call errors, sends exactly indices 0 and 1, and records
exactly node A for teardown. -/
theorem c3_dispatch_abort_witness :
    (dispatchRemote (fun _ => .ok ())
      (fun j => if j = 1 then .error (.LogicalError "rpc failed") else .ok ())
      [(⟨"A"⟩, "fa"), (⟨"B"⟩, "fb"), (⟨"C"⟩, "fc")]).outcome =
        .error (.LogicalError "rpc failed") ∧
    (dispatchRemote (fun _ => .ok ())
      (fun j => if j = 1 then .error (.LogicalError "rpc failed") else .ok ())
      [(⟨"A"⟩, "fa"), (⟨"B"⟩, "fb"), (⟨"C"⟩, "fc")]).sent = idxRange 0 1 ++ [1] ∧
    (∀ nm, nm ∈ (dispatchRemote (fun _ => .ok ())
      (fun j => if j = 1 then .error (.LogicalError "rpc failed") else .ok ())
      [(⟨"A"⟩, "fa"), (⟨"B"⟩, "fb"), (⟨"C"⟩, "fc")]).killed ↔
      nm ∈ (([(⟨"A"⟩, "fa"), (⟨"B"⟩, "fb"), (⟨"C"⟩, "fc")] :
        List (ClusterNode × String)).take 1).map (fun na => na.1.name)) ∧
    (dispatchRemote (fun _ => .ok ())
      (fun j => if j = 1 then .error (.LogicalError "rpc failed") else .ok ())
      [(⟨"A"⟩, "fa"), (⟨"B"⟩, "fb"), (⟨"C"⟩, "fc")]).killed.Nodup :=
  c3_dispatch_abort (fun _ => .ok ())
    (fun j => if j = 1 then .error (.LogicalError "rpc failed") else .ok ())
    [(⟨"A"⟩, "fa"), (⟨"B"⟩, "fb"), (⟨"C"⟩, "fc")] 1 (.LogicalError "rpc failed")
    (by decide)
    (by intro j hj
        interval_cases j
        exact ⟨rfl, rfl⟩)
    rfl rfl

/-- C10: In ExpressionExecutor::execute, the exists substitutions are
inserted into the column map before any action runs (first conjunct: the
pre-seeded map carries the broadcast boolean for every substitution key);
any action whose output name is already present is skipped rather than
recomputed, so the action loop never changes the binding of a name already
in the map (second conjunct, for arbitrary intermediate maps, which also
gives computed-at-most-once for names produced by earlier actions); and
consequently pre-seeded substitution columns take precedence over chain
actions of the same name all the way to the output block (third conjunct,
for the non-alias-projecting executor). -/
theorem c10_executor_substitutions_and_skip (evalFn : FuncEval) (block : DataBlock)
    (subs : List (String × Bool)) (cm0 : ColumnMap) (n : String)
    (hnodup : (subs.map Prod.fst).Nodup)
    (hseed : seedFromBlock block = .ok cm0) :
    (∀ b, (n, b) ∈ subs →
      hmLookup (insertExistsColumns cm0 (some subs) block.num_rows) n =
        some (.Array (List.replicate block.num_rows (DataValue.Boolean (some b))))) ∧
    (∀ chain cm am out, hmContains cm n = true →
      processActions evalFn block block.num_rows chain cm am = .ok out →
      hmLookup out.1 n = hmLookup cm n) ∧
    (∀ ex : ExpressionExecutor, ex.alias_project = false →
      ∀ out, ExpressionExecutor.execute evalFn ex block (some subs) = .ok out →
      ∀ b, (n, b) ∈ subs →
      ∀ (i : Nat) (f : DataField), ex.output_schema[i]? = some f → f.name = n →
        out.columns[i]? =
          some (.Array (List.replicate block.num_rows (DataValue.Boolean (some b))))) := by
  have hsub : ∀ b, (n, b) ∈ subs →
      hmLookup (insertExistsColumns cm0 (some subs) block.num_rows) n =
        some (.Array (List.replicate block.num_rows (DataValue.Boolean (some b)))) := by
    intro b hb
    unfold insertExistsColumns
    exact lookup_foldl_insert_mem
      (fun b2 => DataColumnarValue.Array (List.replicate block.num_rows (DataValue.Boolean (some b2))))
      subs cm0 n b hnodup hb
  refine ⟨hsub, fun chain cm am out hc h =>
    processActions_preserves evalFn block block.num_rows chain cm am out n hc h,
    ?_⟩
  intro ex hap out hout b hb i f hf hfn
  unfold ExpressionExecutor.execute at hout
  simp only [hseed] at hout
  cases hproc : processActions evalFn block block.num_rows ex.chain
      (insertExistsColumns cm0 (some subs) block.num_rows) [] with
  | error e0 => simp only [hproc] at hout; cases hout
  | ok pr =>
      obtain ⟨cm2, am⟩ := pr
      simp only [hproc, hap, Bool.false_eq_true, if_false] at hout
      cases hproj : projectOutput cm2 ex.output_schema with
      | error e0 => simp only [hproj] at hout; cases hout
      | ok cols =>
          simp only [hproj] at hout
          cases hout
          obtain ⟨c, hcs, hcl⟩ := projectOutput_get cm2 ex.output_schema cols hproj i f hf
          have hlk1 := hsub b hb

          have hcont : hmContains (insertExistsColumns cm0 (some subs) block.num_rows) n = true := by
            simp [hmContains, hlk1]
          have hpres := processActions_preserves evalFn block block.num_rows ex.chain
            (insertExistsColumns cm0 (some subs) block.num_rows) [] (cm2, am) n hcont hproc
          rw [hfn] at hcl
          rw [hcs]
          have : c = DataColumnarValue.Array
              (List.replicate block.num_rows (DataValue.Boolean (some b))) := by
            have h1 : hmLookup cm2 n =
                some (DataColumnarValue.Array
                  (List.replicate block.num_rows (DataValue.Boolean (some b)))) := by
              rw [hpres]
              exact hlk1
            rw [h1] at hcl
            exact (Option.some.inj hcl).symm
          rw [this]

/-- Witness for C10: a block with one Int64 column x, one substitution for
the name e, and a chain containing a Constant action also named e; the
output column projected for the field e is the broadcast substitution
boolean, not the chain constant. -/
theorem c10_executor_substitutions_and_skip_witness :
    (∀ b, (("e", b) ∈ ([("e", true)] : List (String × Bool))) →
      hmLookup (insertExistsColumns
        [("x", DataColumnarValue.Array [DataValue.Int64 (some 7)])]
        (some [("e", true)])
        (DataBlock.num_rows ⟨[DataField.new "x" .Int64 false],
          [DataColumnarValue.Array [DataValue.Int64 (some 7)]]⟩)) "e" =
        some (.Array (List.replicate
          (DataBlock.num_rows ⟨[DataField.new "x" .Int64 false],
            [DataColumnarValue.Array [DataValue.Int64 (some 7)]]⟩)
          (DataValue.Boolean (some b))))) ∧
    (∀ chain cm am out, hmContains cm "e" = true →
      processActions (fun _ _ _ => .error (.UnknownFunction "none"))
        ⟨[DataField.new "x" .Int64 false], [DataColumnarValue.Array [DataValue.Int64 (some 7)]]⟩
        (DataBlock.num_rows ⟨[DataField.new "x" .Int64 false],
          [DataColumnarValue.Array [DataValue.Int64 (some 7)]]⟩) chain cm am = .ok out →
      hmLookup out.1 "e" = hmLookup cm "e") ∧
    (∀ ex : ExpressionExecutor, ex.alias_project = false →
      ∀ out, ExpressionExecutor.execute (fun _ _ _ => .error (.UnknownFunction "none")) ex
        ⟨[DataField.new "x" .Int64 false], [DataColumnarValue.Array [DataValue.Int64 (some 7)]]⟩
        (some [("e", true)]) = .ok out →
      ∀ b, (("e", b) ∈ ([("e", true)] : List (String × Bool))) →
      ∀ (i : Nat) (f : DataField), ex.output_schema[i]? = some f → f.name = "e" →
        out.columns[i]? =
          some (.Array (List.replicate
            (DataBlock.num_rows ⟨[DataField.new "x" .Int64 false],
              [DataColumnarValue.Array [DataValue.Int64 (some 7)]]⟩)
            (DataValue.Boolean (some b))))) :=
  c10_executor_substitutions_and_skip (fun _ _ _ => .error (.UnknownFunction "none"))
    ⟨[DataField.new "x" .Int64 false], [DataColumnarValue.Array [DataValue.Int64 (some 7)]]⟩
    [("e", true)]
    [("x", DataColumnarValue.Array [DataValue.Int64 (some 7)])] "e"
    (by simp) rfl

/-- C4: For every input batch flowing through the Filter operator whose
compiled predicate evaluates to a boolean column, the output batch retains
exactly the rows whose predicate value is true, in their original order;
rows whose value is false or null are removed (keepRows keeps exactly the
positions whose mask entry is some true).  The arrow filter kernel itself
is an external collaborator modelled from the spec. -/
theorem c4_filter_retains_true_rows (evalFn : FuncEval) (executor : ExpressionExecutor)
    (exists_map : List (String × Bool)) (cname : String)
    (block fb : DataBlock) (fcol : DataColumnarValue) (mask : List (Option Bool))
    (hexec : executor.execute evalFn block (some exists_map) = .ok fb)
    (hcol : fb.try_column_by_name cname = .ok fcol)
    (hdc : downcastBooleanArray fcol.to_array = .ok mask)
    (hwf : (block.columns.all (fun c => c.to_array.length = mask.length)) = true) :
    execute_fn evalFn executor exists_map cname (.ok block) =
      .ok ⟨block.schema, block.columns.map (fun c => .Array (keepRows c.to_array mask))⟩ := by
  unfold execute_fn
  simp only [hexec, hcol, hdc]
  unfold filter_record_batch
  rw [if_pos hwf]

/-- Witness for C4, the spec's canonical example: a predicate column
[true, false, null, true] over a 4-row batch keeps exactly rows 0 and 3 of
every column, in order. -/
theorem c4_filter_retains_true_rows_witness :
    execute_fn (fun _ _ _ => .error (.UnknownFunction "none"))
      ⟨[DataField.new "x" .Int64 false, DataField.new "p" .Boolean false],
       [DataField.new "x" .Int64 false, DataField.new "p" .Boolean false], [], false⟩
      [] "p"
      (.ok ⟨[DataField.new "x" .Int64 false, DataField.new "p" .Boolean false],
        [.Array [.Int64 (some 1), .Int64 (some 2), .Int64 (some 3), .Int64 (some 4)],
         .Array [.Boolean (some true), .Boolean (some false), .Boolean none,
                 .Boolean (some true)]]⟩) =
      .ok ⟨[DataField.new "x" .Int64 false, DataField.new "p" .Boolean false],
        [.Array [.Int64 (some 1), .Int64 (some 4)],
         .Array [.Boolean (some true), .Boolean (some true)]]⟩ :=
  (c4_filter_retains_true_rows (fun _ _ _ => .error (.UnknownFunction "none"))
    ⟨[DataField.new "x" .Int64 false, DataField.new "p" .Boolean false],
     [DataField.new "x" .Int64 false, DataField.new "p" .Boolean false], [], false⟩
    [] "p"
    ⟨[DataField.new "x" .Int64 false, DataField.new "p" .Boolean false],
      [.Array [.Int64 (some 1), .Int64 (some 2), .Int64 (some 3), .Int64 (some 4)],
       .Array [.Boolean (some true), .Boolean (some false), .Boolean none,
               .Boolean (some true)]]⟩
    ⟨[DataField.new "x" .Int64 false, DataField.new "p" .Boolean false],
      [.Array [.Int64 (some 1), .Int64 (some 2), .Int64 (some 3), .Int64 (some 4)],
       .Array [.Boolean (some true), .Boolean (some false), .Boolean none,
               .Boolean (some true)]]⟩
    (.Array [.Boolean (some true), .Boolean (some false), .Boolean none,
             .Boolean (some true)])
    [some true, some false, none, some true]
    rfl rfl rfl rfl).trans rfl

/-- C2: for every plan whose filter predicate contains EXISTS(u) where u's
own first filter predicate contains EXISTS(v) (a nested EXISTS inside
another EXISTS), the scheduler executes v strictly before u and u strictly
before the top-level plan, and the substitution map passed to u's
execution already contains an entry recorded under v's Exists name.
Hypothesis: every subquery execution succeeds with at least one block
(otherwise the scheduler panics on result[0]; see the C1 result). -/
theorem c2_nested_exists_order (runPlan : ExecOracle) (plan u v : PlanNode)
    (fpTop fpU : FilterPlan)
    (hrun : ∀ p s, ∃ b bs, runPlan p s = .ok (b :: bs))
    (hft : get_filter_plan plan = .ok fpTop)
    (hu : Expression.Exists u ∈ find_exists_exprs [fpTop.predicate])
    (hfu : get_filter_plan u = .ok fpU)
    (hv : Expression.Exists v ∈ find_exists_exprs [fpU.predicate]) :
    ∃ final resTop sV sU t1 t2 t3,
      selectExecute runPlan plan =
        .ok (final, t1 ++ ⟨v, sV⟩ :: t2 ++ ⟨u, sU⟩ :: t3 ++ [⟨plan, resTop⟩]) ∧
      hmContains sU ((Expression.Exists v).column_name) = true := by
  classical
  set one0 := (levelEntries [plan]).map (fun e => e.1) with hone0
  set names1 := (levelEntries [plan]).foldl (fun m e => hmInsert m e.2.1 e.2.2) [] with hnames1
  set one1 := (levelEntries one0).map (fun e => e.1) with hone1
  set names2 := (levelEntries one0).foldl (fun m e => hmInsert m e.2.1 e.2.2) names1
    with hnames2
  have heU : (u, u.debugStr, (Expression.Exists u).column_name) ∈ levelEntries [plan] :=
    mem_levelEntries_of [plan] plan fpTop u (List.mem_singleton.mpr rfl) hft hu
  have hu0 : u ∈ one0 := List.mem_map.mpr ⟨_, heU, rfl⟩
  have heV : (v, v.debugStr, (Expression.Exists v).column_name) ∈ levelEntries one0 :=
    mem_levelEntries_of one0 u fpU v hu0 hfu hv
  have hv1 : v ∈ one1 := List.mem_map.mpr ⟨_, heV, rfl⟩
  have hne0 : one0.isEmpty = false := by
    cases h0 : one0 with
    | nil => rw [h0] at hu0; cases hu0
    | cons a l => rfl
  have hne1 : one1.isEmpty = false := by
    cases h0 : one1 with
    | nil => rw [h0] at hv1; cases hv1
    | cons a l => rfl
  obtain ⟨q0, qs0, hq0⟩ := List.exists_cons_of_ne_nil (List.ne_nil_of_mem hu0)
  have hbfs1 : bfs (planSize plan + 2) [plan] [] =
      (one0 :: (bfs (planSize plan + 1) one0 names1).1,
       (bfs (planSize plan + 1) one0 names1).2) := by
    rw [show planSize plan + 2 = (planSize plan + 1) + 1 from rfl]
    rw [bfs_unfold_cons (planSize plan + 1) plan [] []]
    rw [← hone0, ← hnames1, if_neg (by rw [hne0]; exact Bool.false_ne_true)]
  have hbfs2 : bfs (planSize plan + 1) one0 names1 =
      (one1 :: (bfs (planSize plan) one1 names2).1,
       (bfs (planSize plan) one1 names2).2) := by
    rw [show planSize plan + 1 = planSize plan + 1 from rfl, hq0]
    rw [bfs_unfold_cons (planSize plan) q0 qs0 names1]
    rw [← hq0, ← hone1, ← hnames2, if_neg (by rw [hne1]; exact Bool.false_ne_true)]
  have hbfs : bfs (planSize plan + 2) [plan] [] =
      (one0 :: one1 :: (bfs (planSize plan) one1 names2).1,
       (bfs (planSize plan) one1 names2).2) := by
    rw [hbfs1, hbfs2]
  obtain ⟨hOkF, _, hLvlF⟩ :=
    bfs_invariant (planSize plan + 2) [plan] [] (by intro kv hkv; cases hkv)
  rw [hbfs] at hOkF hLvlF
  simp only [] at hOkF hLvlF
  set namesF := (bfs (planSize plan) one1 names2).2 with hnamesF
  set restL := (bfs (planSize plan) one1 names2).1 with hrestL
  have hcont0 : ∀ p ∈ one0, hmContains namesF p.debugStr = true :=
    fun p hp => hLvlF one0 (List.mem_cons_self _ _) p hp
  have hcont1 : ∀ p ∈ one1, hmContains namesF p.debugStr = true :=
    fun p hp => hLvlF one1 (List.mem_cons_of_mem _ (List.mem_cons_self _ _)) p hp
  have hcontR : ∀ lvl ∈ restL.reverse, ∀ p ∈ lvl, hmContains namesF p.debugStr = true :=
    fun lvl hl p hp => hLvlF lvl
      (List.mem_cons_of_mem _ (List.mem_cons_of_mem _ (List.mem_reverse.mp hl))) p hp
  obtain ⟨resA, deltaA, hA, _⟩ :=
    runLevels_ok runPlan namesF hrun hOkF restL.reverse hcontR ([], [])
  obtain ⟨resB, delta1, hB, monoB, hcB, hentB⟩ :=
    runLevel_ok runPlan namesF hrun hOkF one1 hcont1 (resA, ([] : List TraceEntry) ++ deltaA)
  obtain ⟨resC, delta0, hC, _, _, hentC⟩ :=
    runLevel_ok runPlan namesF hrun hOkF one0 hcont0
      (resB, (([] : List TraceEntry) ++ deltaA) ++ delta1)
  have hrl2 : runLevels runPlan namesF [one1, one0] (resA, ([] : List TraceEntry) ++ deltaA) =
      .ok (resC, ((([] : List TraceEntry) ++ deltaA) ++ delta1) ++ delta0) := by
    show (match runLevel runPlan namesF one1 (resA, ([] : List TraceEntry) ++ deltaA) with
        | .ok st2 => runLevels runPlan namesF [one0] st2
        | .error e => .error e
        | .panicked m => .panicked m) = _
    rw [hB]
    show (match runLevel runPlan namesF one0
        (resB, (([] : List TraceEntry) ++ deltaA) ++ delta1) with
        | .ok st2 => runLevels runPlan namesF [] st2
        | .error e => .error e
        | .panicked m => .panicked m) = _
    rw [hC]
    rfl
  have hall : runLevels runPlan namesF (one0 :: one1 :: restL).reverse ([], []) =
      .ok (resC, ((([] : List TraceEntry) ++ deltaA) ++ delta1) ++ delta0) := by
    rw [List.reverse_cons, List.reverse_cons, List.append_assoc]
    rw [runLevels_append runPlan namesF restL.reverse ([one1] ++ [one0])
      ([], []) (resA, ([] : List TraceEntry) ++ deltaA) hA]
    exact hrl2
  obtain ⟨bF, bsF, hrF⟩ := hrun plan resC
  have hsel : selectExecute runPlan plan =
      .ok (bF :: bsF,
        (((([] : List TraceEntry) ++ deltaA) ++ delta1) ++ delta0) ++ [⟨plan, resC⟩]) := by
    show (match runLevels runPlan (bfs (planSize plan + 2) [plan] []).2
        ((bfs (planSize plan + 2) [plan] []).1).reverse ([], []) with
      | .panicked m => RunOut.panicked m
      | .error e => RunOut.error e
      | .ok (res, tr) =>
          match runPlan plan res with
          | .error e => RunOut.error e
          | .ok final => RunOut.ok (final, tr ++ [(⟨plan, res⟩ : TraceEntry)])) = _
    rw [hbfs]
    show (match runLevels runPlan namesF (one0 :: one1 :: restL).reverse ([], []) with
      | .panicked m => RunOut.panicked m
      | .error e => RunOut.error e
      | .ok (res, tr) =>
          match runPlan plan res with
          | .error e => RunOut.error e
          | .ok final => RunOut.ok (final, tr ++ [(⟨plan, res⟩ : TraceEntry)])) = _
    rw [hall]
    show (match runPlan plan resC with
      | .error e => RunOut.error e
      | .ok final => RunOut.ok (final,
          (((([] : List TraceEntry) ++ deltaA) ++ delta1) ++ delta0) ++
            [(⟨plan, resC⟩ : TraceEntry)])) = _
    rw [hrF]
  obtain ⟨eV, hmemV, hplanV, _⟩ := hentB v hv1
  obtain ⟨eU, hmemU, hplanU, hsubU⟩ := hentC u hu0
  have hsUv : hmContains eU.subst ((Expression.Exists v).column_name) = true :=
    hsubU _ (hcB v hv1)
  obtain ⟨a1, b1, hsplit1⟩ := List.append_of_mem hmemV
  obtain ⟨a0, b0, hsplit0⟩ := List.append_of_mem hmemU
  obtain ⟨pV, sV⟩ := eV
  obtain ⟨pU, sU⟩ := eU
  simp only [] at hplanV hplanU hsUv
  subst hplanV
  subst hplanU
  refine ⟨bF :: bsF, resC, sV, sU, deltaA ++ a1, b1 ++ a0, b0, ?_, hsUv⟩
  rw [hsel, hsplit1, hsplit0]
  simp [List.append_assoc]

/-- Witness for C2: the spec's canonical nesting
EXISTS(u WHERE EXISTS(v)) with a constant one-block oracle; the trace
splits as required. -/
theorem c2_nested_exists_order_witness :
    ∃ final resTop sV sU t1 t2 t3,
      selectExecute (fun _ _ => .ok [⟨[], []⟩])
        (.Filter (.Exists (.Filter (.Exists (.Scan "v" [])) (.Scan "u" [])))
          (.Scan "t" [])) =
        .ok (final, t1 ++ ⟨.Scan "v" [], sV⟩ :: t2 ++
          ⟨.Filter (.Exists (.Scan "v" [])) (.Scan "u" []), sU⟩ :: t3 ++
          [⟨.Filter (.Exists (.Filter (.Exists (.Scan "v" [])) (.Scan "u" [])))
              (.Scan "t" []), resTop⟩]) ∧
      hmContains sU ((Expression.Exists (.Scan "v" [])).column_name) = true :=
  c2_nested_exists_order (fun _ _ => .ok [⟨[], []⟩])
    (.Filter (.Exists (.Filter (.Exists (.Scan "v" [])) (.Scan "u" []))) (.Scan "t" []))
    (.Filter (.Exists (.Scan "v" [])) (.Scan "u" [])) (.Scan "v" [])
    ⟨.Exists (.Filter (.Exists (.Scan "v" [])) (.Scan "u" [])), .Scan "t" []⟩
    ⟨.Exists (.Scan "v" []), .Scan "u" []⟩
    (fun p s => ⟨⟨[], []⟩, [], rfl⟩)
    rfl
    (by simp [find_exists_exprs, findExistsList, findExistsIn])
    rfl
    (by simp [find_exists_exprs, findExistsList, findExistsIn])

/-- C1 (the code evaluated at the failing input): a subquery whose
execution produces no blocks at all makes SelectInterpreter::execute hit
the Vec indexing result[0] on an empty Vec, a panic, instead of recording
the boolean false that the claim requires (the running map also stores a
DataBlock, not a boolean: SubqueryResult wraps a HashMap from String to
DataBlock). -/
theorem c1_empty_subquery_panics :
    selectExecute (fun _ _ => .ok [])
      (.Filter (.Exists (.Scan "q" [])) (.Scan "s" [])) =
      .panicked "index out of bounds: the len is 0 but the index is 0" := rfl

end Datafuse
